import Mathlib

/-!
Verification development for the TekkenCommand command-sequence editing
engine: token vocabulary, command buffer with cursor/selection, the
scene/index/flag undo-redo history protocol, the 60 Hz key-frame sampler
tick (hold detection, heat double-press merging), the key-to-direction
decoder, and the clipboard text codec.  All definitions are shallow
embeddings of the TypeScript sources in src/src (useCommandInput.ts,
utils/keyMapping.ts, utils/commandClipboard.ts, types/index.ts).
-/

set_option maxHeartbeats 1000000

namespace Tekken

/-- DirectionNotation in the source: u,d,f,b, diagonals, neutral n, and the
eight hold variants. -/
inductive DirectionValue where
  | u | d | f | b
  | ub | uf | db | df
  | n
  | uhold | dhold | fhold | bhold
  | ubhold | ufhold | dbhold | dfhold
deriving DecidableEq

/-- ButtonNotation in the source: the 15 non-empty sorted subsets of 1..4
joined by plus signs.  b12 stands for the source string value of 1 and 2
pressed together, and so on. -/
inductive ButtonValue where
  | b1 | b2 | b3 | b4
  | b12 | b13 | b14 | b23 | b24 | b34
  | b123 | b124 | b134 | b234 | b1234
deriving DecidableEq

/-- SpecialNotation in the source. -/
inductive SpecialValue where
  | heat | heatSmash | rage
deriving DecidableEq

/-- NotationImage in the source: structural marks.  The linebreak value is
the one inserted by the backslash key handler in useCommandInput.ts. -/
inductive MarkValue where
  | bracketl | bracketr | parenl | parenr | next | tilde | linebreak
deriving DecidableEq

/-- CommandItem in the source.  The structural-mark constructor is called
mark here because its source name is a reserved word in Lean. -/
inductive CommandItem where
  | direction (value : DirectionValue)
  | button (value : ButtonValue)
  | special (value : SpecialValue)
  | mark (value : MarkValue)
  | text (value : String)
deriving DecidableEq

/-- SelectionRange in the source; the source field named end is called
stop here because end is a reserved word in Lean. -/
structure SelRange where
  start : Nat
  stop : Nat
deriving DecidableEq

/-- HistoryState in the source: one snapshot of the live buffer. -/
structure Snap where
  commands : List CommandItem
  cursorIndex : Nat
  selection : Option SelRange
deriving DecidableEq

/-- The whole per-session state of useCommandInput that the history and
buffer operations touch: the live buffer (commands, cursor, sel), the
history array (log), historyIndexRef (idx), sceneRef (scene) and
historyFlagRef (flag, 0 or 1 in the source, a Bool here). -/
structure St where
  commands : List CommandItem
  cursor : Nat
  sel : Option SelRange
  log : List Snap
  idx : Nat
  scene : Nat
  flag : Bool
deriving DecidableEq

def HISTORY_MAX : Nat := 100

def snapshotFromRefs (s : St) : Snap :=
  ⟨s.commands, s.cursor, s.sel⟩

/-- The selection clamping performed by the effect on commands change in
useCommandInput.ts lines 143-149: clamp both ends to the new length and
drop the range if it collapses. -/
def clampSel (len : Nat) : Option SelRange → Option SelRange
  | none => none
  | some r =>
    let st := min r.start len
    let en := min r.stop len
    if st < en then some ⟨st, en⟩ else none

/-- A snapshot with cursor and selection clamped against its own command
list, as the commands-change effect leaves the live state. -/
def normSnap (e : Snap) : Snap :=
  ⟨e.commands, min e.cursorIndex e.commands.length, clampSel e.commands.length e.selection⟩

/-- Overwrite the live buffer fields of the state with a snapshot, applying
the clamping effect that runs after every commands change. -/
def setLive (e : Snap) (s : St) : St :=
  { s with
    commands := (normSnap e).commands
    cursor := (normSnap e).cursorIndex
    sel := (normSnap e).selection }

/-- pushHistory in useCommandInput.ts lines 158-180: the special case for
idx = 0, scene = 1 only bumps scene; otherwise truncate the redo branch if
requested, append a snapshot of the live state, point idx at it, evict from
the front while over capacity (decrementing idx), clear the flag and set
scene to length + 1. -/
def pushHistory (truncateRedo : Bool) (s : St) : St :=
  if s.idx = 0 ∧ s.scene = 1 then
    { s with
      log := if truncateRedo then s.log.take 1 else s.log
      scene := 2
      flag := false }
  else
    let base := if truncateRedo then s.log.take (s.idx + 1) else s.log
    let pushed := base ++ [snapshotFromRefs s]
    let k := pushed.length - HISTORY_MAX
    { s with
      log := pushed.drop k
      idx := pushed.length - 1 - k
      flag := false
      scene := (pushed.drop k).length + 1 }

inductive Trigger where
  | insert
  | always
deriving DecidableEq

/-- tryPushUndoState in useCommandInput.ts lines 182-189: on an
insert-trigger with the flag clear, skip the push but advance scene to
length + 1; otherwise push with redo truncation. -/
def tryPushUndoState (t : Trigger) (s : St) : St :=
  if t = Trigger.insert ∧ s.flag = false then
    { s with scene := s.log.length + 1 }
  else
    pushHistory true s

/-- undo in useCommandInput.ts lines 191-212.  If idx + 1 equals the log
length the live state is first appended; then, only when idx + 1 < scene,
the snapshot at idx is restored (an explicit empty list when idx = 0), idx
is decremented when positive and scene becomes idx + 1.  The flag is set in
every case. -/
def undo (s : St) : St :=
  let log1 := if s.idx + 1 = s.log.length then s.log ++ [snapshotFromRefs s] else s.log
  if s.idx + 1 < s.scene then
    let snap := log1.getD s.idx ⟨[], 0, none⟩
    let restored : Snap := ⟨if s.idx = 0 then [] else snap.commands, snap.cursorIndex, snap.selection⟩
    setLive restored
      { s with
        log := log1
        idx := if 0 < s.idx then s.idx - 1 else s.idx
        scene := s.idx + 1
        flag := true }
  else
    { s with log := log1, flag := true }

/-- redo in useCommandInput.ts lines 214-239: with idx + 1 < scene and
idx + 2 in range restore log[idx + 2], bump idx and set scene to idx + 3;
else with idx + 1 in range restore log[idx + 1] keeping idx and set scene
to idx + 2; else do nothing.  The flag is set in every case. -/
def redo (s : St) : St :=
  if s.idx + 1 < s.scene then
    if s.idx + 2 < s.log.length then
      let snap := s.log.getD (s.idx + 2) ⟨[], 0, none⟩
      setLive snap { s with idx := s.idx + 1, scene := s.idx + 3, flag := true }
    else
      { s with flag := true }
  else if s.idx + 1 < s.log.length then
    let snap := s.log.getD (s.idx + 1) ⟨[], 0, none⟩
    setLive snap { s with scene := s.idx + 2, flag := true }
  else
    { s with flag := true }

def initialSnap : Snap := ⟨[], 0, none⟩

/-- The session start state: empty buffer, history seeded with one empty
snapshot, idx 0, scene 1, flag clear. -/
def initSt : St :=
  ⟨[], 0, none, [initialSnap], 0, 1, false⟩

/-- insertCommandAtCursor in useCommandInput.ts lines 264-276: with an
active selection replace the selected range by the single item, clear the
selection and put the cursor at start + 1; otherwise insert at the cursor
(clamped) and advance the cursor by one. -/
def insertCommandAtCursor (item : CommandItem) (s : St) : St :=
  match s.sel with
  | some r =>
    if r.start < r.stop then
      setLive ⟨s.commands.take r.start ++ [item] ++ s.commands.drop r.stop, r.start + 1, none⟩ s
    else
      setLive ⟨s.commands.take (min s.cursor s.commands.length) ++ [item]
                 ++ s.commands.drop (min s.cursor s.commands.length), s.cursor + 1, s.sel⟩ s
  | none =>
    setLive ⟨s.commands.take (min s.cursor s.commands.length) ++ [item]
               ++ s.commands.drop (min s.cursor s.commands.length), s.cursor + 1, none⟩ s

/-- One user-level operation of the editing engine, as seen by the history
protocol.  editI abstracts any buffer mutation gated by an insert-trigger
save (space/bracket/paren/tilde handlers and the sampler tick commit);
editA any mutation gated by an always save (backspace, delete, paste, cut,
text commit, clear, linebreak); setCur and setSel the pure
cursor/selection changes which only set the flag. -/
inductive Op where
  | editI (e : Snap)
  | editA (e : Snap)
  | setCur (v : Nat)
  | setSel (r : Option SelRange)
  | undo
  | redo

def applyOp : Op → St → St
  | .editI e, s => setLive e (tryPushUndoState .insert s)
  | .editA e, s => setLive e (tryPushUndoState .always s)
  | .setCur v, s => { s with flag := true, cursor := min v s.commands.length }
  | .setSel r, s => { s with flag := true, sel := r }
  | .undo, s => undo s
  | .redo, s => redo s

def applyOps (ops : List Op) (s : St) : St :=
  ops.foldl (fun t o => applyOp o t) s

/-- The strengthened history invariant: the log is never empty, idx points
into the log, and scene is strictly greater than idx. -/
def Inv (s : St) : Prop :=
  1 ≤ s.log.length ∧ s.idx + 1 ≤ s.log.length ∧ s.idx < s.scene

lemma inv_setLive (e : Snap) (s : St) (h : Inv s) : Inv (setLive e s) := h

lemma inv_pushHistory (b : Bool) (s : St) (h : Inv s) : Inv (pushHistory b s) := by
  obtain ⟨h1, h2, h3⟩ := h
  unfold pushHistory
  split
  · rename_i hc
    obtain ⟨hi, _⟩ := hc
    cases b <;> simp [Inv, List.length_take] <;> omega
  · cases b <;>
      simp [Inv, List.length_drop, List.length_append, List.length_take, HISTORY_MAX] <;>
      omega

lemma inv_tryPushUndoState (t : Trigger) (s : St) (h : Inv s) : Inv (tryPushUndoState t s) := by
  obtain ⟨h1, h2, h3⟩ := h
  unfold tryPushUndoState
  split
  · simp [Inv]
    omega
  · exact inv_pushHistory true s ⟨h1, h2, h3⟩

lemma inv_undo (s : St) (h : Inv s) : Inv (undo s) := by
  obtain ⟨h1, h2, h3⟩ := h
  simp only [undo]
  repeat' split
  all_goals simp [Inv, setLive, List.length_append]
  all_goals omega

lemma inv_redo (s : St) (h : Inv s) : Inv (redo s) := by
  obtain ⟨h1, h2, h3⟩ := h
  simp only [redo]
  repeat' split
  all_goals simp [Inv, setLive]
  all_goals omega

lemma inv_applyOp (o : Op) (s : St) (h : Inv s) : Inv (applyOp o s) := by
  cases o with
  | editI e => exact inv_setLive _ _ (inv_tryPushUndoState _ _ h)
  | editA e => exact inv_setLive _ _ (inv_tryPushUndoState _ _ h)
  | setCur v => exact h
  | setSel r => exact h
  | undo => exact inv_undo s h
  | redo => exact inv_redo s h

lemma inv_applyOps (ops : List Op) (s : St) (h : Inv s) : Inv (applyOps ops s) := by
  induction ops generalizing s with
  | nil => exact h
  | cons o rest ih => exact ih (applyOp o s) (inv_applyOp o s h)

lemma inv_initSt : Inv initSt := by
  refine ⟨?_, ?_, ?_⟩ <;> simp [initSt]

/-- C1 (amended): along every sequence of operations from the initial
state, scene is strictly greater than idx. -/
theorem history_scene_gt_index (ops : List Op) :
    (applyOps ops initSt).idx < (applyOps ops initSt).scene :=
  (inv_applyOps ops initSt inv_initSt).2.2

/-- C1 counterexample: after undo followed by redo from the initial state,
the live buffer state equals log[idx] exactly, yet scene differs from
idx + 1, refuting the claimed equivalence between the two. -/
theorem history_scene_iff_cex :
    snapshotFromRefs (applyOps [Op.undo, Op.redo] initSt)
        = (applyOps [Op.undo, Op.redo] initSt).log.getD
            (applyOps [Op.undo, Op.redo] initSt).idx ⟨[], 0, none⟩
      ∧ (applyOps [Op.undo, Op.redo] initSt).scene
          ≠ (applyOps [Op.undo, Op.redo] initSt).idx + 1 := by
  decide

/-- C3 (amended): when undo's guard fails the buffer, idx and scene are
left unchanged and no error occurs, but if idx + 1 equals the log length a
snapshot of the live state is still appended to the log, and the flag is
set; when redo's guards fail, redo only sets the flag, leaving buffer,
log, idx and scene unchanged. -/
theorem undo_redo_boundary_noop (s : St) :
    (¬ s.idx + 1 < s.scene →
      undo s = { s with
        log := if s.idx + 1 = s.log.length then s.log ++ [snapshotFromRefs s] else s.log
        flag := true })
    ∧ ((s.idx + 1 < s.scene → ¬ s.idx + 2 < s.log.length) →
       (¬ s.idx + 1 < s.scene → ¬ s.idx + 1 < s.log.length) →
       redo s = { s with flag := true }) := by
  constructor
  · intro hg
    simp only [undo]
    rw [if_neg hg]
  · intro ha hb
    simp only [redo]
    by_cases hg : s.idx + 1 < s.scene
    · rw [if_pos hg, if_neg (ha hg)]
    · rw [if_neg hg, if_neg (hb hg)]

theorem undo_redo_boundary_noop_witness :
    undo initSt = { initSt with
      log := if initSt.idx + 1 = initSt.log.length
             then initSt.log ++ [snapshotFromRefs initSt] else initSt.log
      flag := true }
    ∧ redo initSt = { initSt with flag := true } :=
  ⟨(undo_redo_boundary_noop initSt).1 (by decide),
   (undo_redo_boundary_noop initSt).2 (by decide) (by decide)⟩

/-- C3 counterexample: at the initial state undo's guard fails, yet the
call is not a pure no-op on the history state: the log contents change
(a snapshot of the live state is appended). -/
theorem undo_boundary_log_changes_cex :
    ¬ initSt.idx + 1 < initSt.scene ∧ (undo initSt).log ≠ initSt.log := by
  decide

/-- C4: the save policy on a sampled-insert trigger.  With the flag clear
no snapshot is taken, only scene is set to log length + 1 and the flag
stays false; with the flag set, pushHistory runs with redo truncation:
outside the idx = 0, scene = 1 special case it truncates after idx,
appends a snapshot of the live state, evicts over capacity, clears the
flag and makes scene equal log length + 1; in the special case it appends
nothing, truncates after index 0 and only advances scene to 2 with the
flag cleared. -/
theorem save_policy_sampled_insert (s : St) :
    (s.flag = false →
      tryPushUndoState .insert s = { s with scene := s.log.length + 1 }
      ∧ (tryPushUndoState .insert s).flag = false)
    ∧ (s.flag = true → ¬ (s.idx = 0 ∧ s.scene = 1) →
        tryPushUndoState .insert s = pushHistory true s
        ∧ (pushHistory true s).flag = false
        ∧ (pushHistory true s).log
            = (s.log.take (s.idx + 1) ++ [snapshotFromRefs s]).drop
                ((s.log.take (s.idx + 1) ++ [snapshotFromRefs s]).length - HISTORY_MAX)
        ∧ (pushHistory true s).scene = (pushHistory true s).log.length + 1
        ∧ (pushHistory true s).idx
            = (s.log.take (s.idx + 1) ++ [snapshotFromRefs s]).length - 1
              - ((s.log.take (s.idx + 1) ++ [snapshotFromRefs s]).length - HISTORY_MAX))
    ∧ (s.idx = 0 ∧ s.scene = 1 →
        pushHistory true s = { s with log := s.log.take 1, scene := 2, flag := false }) := by
  refine ⟨?_, ?_, ?_⟩
  · intro hf
    constructor <;> simp [tryPushUndoState, hf]
  · intro hf hns
    refine ⟨?_, ?_, ?_, ?_, ?_⟩ <;> simp [tryPushUndoState, pushHistory, hf, hns]
  · intro hsp
    simp [pushHistory, hsp]

theorem save_policy_sampled_insert_witness :
    (tryPushUndoState .insert initSt = { initSt with scene := initSt.log.length + 1 }
      ∧ (tryPushUndoState .insert initSt).flag = false)
    ∧ pushHistory true initSt
        = { initSt with log := initSt.log.take 1, scene := 2, flag := false } :=
  ⟨(save_policy_sampled_insert initSt).1 (by decide),
   (save_policy_sampled_insert initSt).2.2 (by decide)⟩

/-- C9: inserting a single token while a selection with start less than
stop is active replaces the range atomically: the length shrinks by the
range size and grows by one, the token lands at index start, the cursor
goes to start + 1 and the selection is cleared. -/
theorem insert_replaces_selection (s : St) (st en : Nat)
    (hsel : s.sel = some ⟨st, en⟩) (hlt : st < en) (hle : en ≤ s.commands.length)
    (item : CommandItem) :
    (insertCommandAtCursor item s).commands.length = s.commands.length - (en - st) + 1
    ∧ (insertCommandAtCursor item s).commands[st]? = some item
    ∧ (insertCommandAtCursor item s).cursor = st + 1
    ∧ (insertCommandAtCursor item s).sel = none := by
  have hst : st ≤ s.commands.length := le_trans (le_of_lt hlt) hle
  simp only [insertCommandAtCursor]
  rw [hsel]
  simp only [if_pos hlt, setLive, normSnap, clampSel]
  have hlen : (s.commands.take st ++ [item] ++ s.commands.drop en).length
      = s.commands.length - (en - st) + 1 := by
    simp [List.length_append, List.length_take, List.length_drop]
    omega
  refine ⟨hlen, ?_, ?_, by trivial⟩
  · have htk : (s.commands.take st).length = st := by
      simp [List.length_take]
      omega
    rw [List.append_assoc, List.getElem?_append_right (by omega), htk]
    simp
  · simp only [hlen]
    omega

def c9Buffer : St :=
  ⟨List.replicate 8 (CommandItem.mark .next), 8, some ⟨2, 5⟩, [initialSnap], 0, 1, false⟩

theorem insert_replaces_selection_witness :
    (insertCommandAtCursor (CommandItem.special .heat) c9Buffer).commands.length = 6
    ∧ (insertCommandAtCursor (CommandItem.special .heat) c9Buffer).commands[2]?
        = some (CommandItem.special .heat)
    ∧ (insertCommandAtCursor (CommandItem.special .heat) c9Buffer).cursor = 3
    ∧ (insertCommandAtCursor (CommandItem.special .heat) c9Buffer).sel = none := by
  have h := insert_replaces_selection c9Buffer 2 5 rfl (by decide) (by decide)
    (CommandItem.special .heat)
  simpa using h

/-- Apply a list of content edits (always-trigger saves followed by buffer
overwrites) left to right. -/
def applyEdits (es : List Snap) (s : St) : St :=
  applyOps (es.map Op.editA) s

lemma applyEdits_cons (e : Snap) (es : List Snap) (s : St) :
    applyEdits (e :: es) s = applyEdits es (applyOp (.editA e) s) := rfl

/-- A snapshot is normal when clamping is the identity on it. -/
def IsNorm (p : Snap) : Prop := normSnap p = p

lemma clampSel_idem (len : Nat) (o : Option SelRange) :
    clampSel len (clampSel len o) = clampSel len o := by
  cases o with
  | none => rfl
  | some r =>
    by_cases h : min r.start len < min r.stop len
    · simp only [clampSel, if_pos h]
      have e1 : min (min r.start len) len = min r.start len := by omega
      have e2 : min (min r.stop len) len = min r.stop len := by omega
      rw [e1, e2, if_pos h]
    · simp only [clampSel, if_neg h]

lemma norm_idem (e : Snap) : IsNorm (normSnap e) := by
  unfold IsNorm normSnap
  simp [clampSel_idem, Nat.min_assoc]

lemma setLive_of_norm (e : Snap) (s : St) (he : IsNorm e) :
    setLive e s = { s with commands := e.commands, cursor := e.cursorIndex, sel := e.selection } := by
  unfold setLive
  rw [he]

lemma getD_norm (L : List Snap) (hnorm : ∀ p ∈ L, IsNorm p) (i : Nat) (d : Snap)
    (hd : IsNorm d) : IsNorm (L.getD i d) := by
  rw [List.getD_eq_getElem?_getD]
  cases h : L[i]? with
  | none => exact hd
  | some x => exact hnorm x (List.getElem?_mem h)

/-- The state at the tip after at least one edit: H holds the pushed
snapshots after the seed entry, cur is the live state. -/
def midState (H : List Snap) (cur : Snap) : St :=
  ⟨cur.commands, cur.cursorIndex, cur.selection, initialSnap :: H, H.length, H.length + 2, false⟩

lemma snapshot_midState (H : List Snap) (cur : Snap) :
    snapshotFromRefs (midState H cur) = cur := rfl

lemma applyEdit_initSt (e : Snap) :
    applyOp (.editA e) initSt = midState [] (normSnap e) := rfl

lemma applyEdit_mid (e : Snap) (H : List Snap) (cur : Snap)
    (hcap : H.length + 2 ≤ HISTORY_MAX) :
    applyOp (.editA e) (midState H cur) = midState (H ++ [cur]) (normSnap e) := by
  have hne : ¬ ((midState H cur).idx = 0 ∧ (midState H cur).scene = 1) := by
    simp [midState]
  show setLive e (tryPushUndoState .always (midState H cur)) = _
  rw [tryPushUndoState, if_neg (by simp), pushHistory, if_neg hne]
  simp only [midState, snapshotFromRefs, setLive, eq_self_iff_true, ite_true]
  rw [show List.take (H.length + 1) (initialSnap :: H) = initialSnap :: H from
    List.take_of_length_le (by simp)]
  rw [show (initialSnap :: H)
        ++ [(⟨cur.commands, cur.cursorIndex, cur.selection⟩ : Snap)]
      = initialSnap :: (H ++ [cur]) from rfl]
  rw [show (initialSnap :: (H ++ [cur])).length = H.length + 2 from by simp]
  rw [show H.length + 2 - HISTORY_MAX = 0 from by omega, List.drop_zero]
  rw [show (initialSnap :: (H ++ [cur])).length = H.length + 2 from by simp]
  simp only [St.mk.injEq, Nat.sub_zero, List.length_append, List.length_singleton,
    List.length_cons, List.length_nil]
  refine ⟨?_, ?_, ?_, ?_, ?_, ?_, ?_⟩ <;> trivial

lemma applyEdits_go (es : List Snap) :
    ∀ (H : List Snap) (cur : Snap), H.length + es.length + 1 ≤ HISTORY_MAX →
    applyEdits es (midState H cur)
      = midState (H ++ (cur :: es.map normSnap).dropLast) ((es.map normSnap).getLastD cur) := by
  induction es with
  | nil => intro H cur _; simp [applyEdits, applyOps, midState]
  | cons e rest ih =>
    intro H cur hcap
    rw [applyEdits_cons, applyEdit_mid e H cur (by simp at hcap ⊢; omega)]
    rw [ih (H ++ [cur]) (normSnap e) (by simp at hcap ⊢; omega)]
    simp only [List.map_cons, List.getLastD_cons, List.dropLast_cons₂, List.append_assoc,
      List.cons_append, List.nil_append, List.singleton_append]

lemma applyEdits_initSt (es : List Snap) (hne : es ≠ [])
    (hcap : es.length ≤ HISTORY_MAX) :
    applyEdits es initSt
      = midState ((es.map normSnap).dropLast) ((es.map normSnap).getLastD initialSnap) := by
  cases es with
  | nil => exact absurd rfl hne
  | cons e rest =>
    rw [applyEdits_cons, applyEdit_initSt,
      applyEdits_go rest [] (normSnap e) (by simp at hcap ⊢; omega)]
    simp only [List.map_cons, List.dropLast_cons₂, List.getLastD_cons, List.nil_append,
      List.cons_append, List.singleton_append]

lemma dropLast_append_getLastD (L : List Snap) (hL : L ≠ []) (d : Snap) :
    L.dropLast ++ [L.getLastD d] = L := by
  induction L generalizing d with
  | nil => exact absurd rfl hL
  | cons a l ih =>
    cases l with
    | nil => rfl
    | cons b l' =>
      rw [List.dropLast_cons₂, List.getLastD_cons, List.cons_append, ih (by simp)]

/-- The state after k undos (1 ≤ k ≤ n) from the tip reached by n edits:
the live state is the snapshot n - k positions into the full log. -/
def uState (L : List Snap) (k : Nat) : St :=
  ⟨((initialSnap :: L).getD (L.length - k) initialSnap).commands,
   ((initialSnap :: L).getD (L.length - k) initialSnap).cursorIndex,
   ((initialSnap :: L).getD (L.length - k) initialSnap).selection,
   initialSnap :: L, L.length - k - 1, L.length - k + 1, true⟩

/-- The state after j redos (1 ≤ j ≤ n) from the bottom of the history. -/
def rState (L : List Snap) (j : Nat) : St :=
  ⟨(L.getD (j - 1) initialSnap).commands,
   (L.getD (j - 1) initialSnap).cursorIndex,
   (L.getD (j - 1) initialSnap).selection,
   initialSnap :: L, j - 1, j + 1, true⟩



lemma isNorm_initialSnap : IsNorm initialSnap := rfl

lemma isNorm_mem_cons (L : List Snap) (hnorm : ∀ p ∈ L, IsNorm p) :
    ∀ p ∈ initialSnap :: L, IsNorm p := by
  intro p hp
  rcases List.mem_cons.mp hp with h | h
  · rw [h]; exact isNorm_initialSnap
  · exact hnorm p h

lemma undo_afterEdits (L : List Snap) (hL : L ≠ []) (hnorm : ∀ p ∈ L, IsNorm p) :
    undo (midState L.dropLast (L.getLastD initialSnap)) = uState L 1 := by
  have hn : 1 ≤ L.length := List.length_pos.mpr hL
  have hdl : L.dropLast.length = L.length - 1 := List.length_dropLast L
  have hpush : (midState L.dropLast (L.getLastD initialSnap)).idx + 1
      = (midState L.dropLast (L.getLastD initialSnap)).log.length := by
    simp [midState]
  have hguard : (midState L.dropLast (L.getLastD initialSnap)).idx + 1
      < (midState L.dropLast (L.getLastD initialSnap)).scene := by
    simp [midState]
  simp only [undo]
  rw [if_pos hpush, if_pos hguard]
  dsimp only [midState, snapshotFromRefs]
  rw [show (initialSnap :: L.dropLast) ++ [L.getLastD initialSnap] = initialSnap :: L from by
    rw [List.cons_append, dropLast_append_getLastD L hL]]
  have hsn : IsNorm ((initialSnap :: L).getD L.dropLast.length ⟨[], 0, none⟩) :=
    getD_norm _ (isNorm_mem_cons L hnorm) _ _ isNorm_initialSnap
  by_cases h0 : L.dropLast.length = 0
  · have h1 : L.length = 1 := by omega
    rw [if_pos h0, if_neg (by omega)]
    have hg : (initialSnap :: L).getD L.dropLast.length ⟨[], 0, none⟩ = initialSnap := by
      rw [h0]
      rfl
    rw [hg]
    have hre : (⟨[], initialSnap.cursorIndex, initialSnap.selection⟩ : Snap) = initialSnap := rfl
    rw [hre, setLive_of_norm _ _ isNorm_initialSnap]
    simp only [uState, initialSnap, h0, hdl, h1]
    rfl
  · rw [if_neg h0, if_pos (by omega)]
    have heta : (⟨((initialSnap :: L).getD L.dropLast.length ⟨[], 0, none⟩).commands,
        ((initialSnap :: L).getD L.dropLast.length ⟨[], 0, none⟩).cursorIndex,
        ((initialSnap :: L).getD L.dropLast.length ⟨[], 0, none⟩).selection⟩ : Snap)
        = (initialSnap :: L).getD L.dropLast.length ⟨[], 0, none⟩ := rfl
    rw [heta, setLive_of_norm _ _ hsn]
    simp only [uState, hdl]
    have hgd : (initialSnap :: L).getD (L.length - 1) ⟨[], 0, none⟩
        = (initialSnap :: L).getD (L.length - 1) initialSnap := rfl
    simp only [St.mk.injEq, hgd]

lemma undo_step (L : List Snap) (hnorm : ∀ p ∈ L, IsNorm p) (k : Nat)
    (h1 : 1 ≤ k) (hk : k < L.length) :
    undo (uState L k) = uState L (k + 1) := by
  have hnp : ¬ ((uState L k).idx + 1 = (uState L k).log.length) := by
    simp [uState] <;> omega
  have hguard : (uState L k).idx + 1 < (uState L k).scene := by
    simp [uState] <;> omega
  simp only [undo]
  rw [if_neg hnp, if_pos hguard]
  dsimp only [uState]
  have hsn : IsNorm ((initialSnap :: L).getD (L.length - k - 1) ⟨[], 0, none⟩) :=
    getD_norm _ (isNorm_mem_cons L hnorm) _ _ isNorm_initialSnap
  by_cases h0 : L.length - k - 1 = 0
  · rw [if_pos h0, if_neg (by omega)]
    have hg : (initialSnap :: L).getD (L.length - k - 1) ⟨[], 0, none⟩ = initialSnap := by
      rw [h0]
      rfl
    rw [hg]
    have hre : (⟨[], initialSnap.cursorIndex, initialSnap.selection⟩ : Snap) = initialSnap := rfl
    rw [hre, setLive_of_norm _ _ isNorm_initialSnap]
    simp only [uState]
    rw [show L.length - (k + 1) = 0 from by omega, h0]
    rfl
  · rw [if_neg h0, if_pos (by omega)]
    have heta : (⟨((initialSnap :: L).getD (L.length - k - 1) ⟨[], 0, none⟩).commands,
        ((initialSnap :: L).getD (L.length - k - 1) ⟨[], 0, none⟩).cursorIndex,
        ((initialSnap :: L).getD (L.length - k - 1) ⟨[], 0, none⟩).selection⟩ : Snap)
        = (initialSnap :: L).getD (L.length - k - 1) ⟨[], 0, none⟩ := rfl
    rw [heta, setLive_of_norm _ _ hsn]
    simp only [uState]
    rw [show L.length - (k + 1) = L.length - k - 1 from by omega]
    rfl

lemma redo_bottom (L : List Snap) (hL : L ≠ []) (hnorm : ∀ p ∈ L, IsNorm p) :
    redo (uState L L.length) = rState L 1 := by
  have hng : ¬ ((uState L L.length).idx + 1 < (uState L L.length).scene) := by
    simp [uState] <;> omega
  have hn : 1 ≤ L.length := List.length_pos.mpr hL
  have hlt : (uState L L.length).idx + 1 < (uState L L.length).log.length := by
    simp [uState] <;> omega
  simp only [redo]
  rw [if_neg hng, if_pos hlt]
  dsimp only [uState]
  have hsn : IsNorm ((initialSnap :: L).getD (L.length - L.length - 1 + 1) ⟨[], 0, none⟩) :=
    getD_norm _ (isNorm_mem_cons L hnorm) _ _ isNorm_initialSnap
  rw [setLive_of_norm _ _ hsn]
  simp only [rState]
  rw [show L.length - L.length - 1 + 1 = 1 from by omega,
    show L.length - L.length - 1 + 2 = 2 from by omega,
    show L.length - L.length - 1 = 0 from by omega]
  rfl

lemma redo_step (L : List Snap) (hnorm : ∀ p ∈ L, IsNorm p) (j : Nat)
    (h1 : 1 ≤ j) (hj : j < L.length) :
    redo (rState L j) = rState L (j + 1) := by
  have hguard : (rState L j).idx + 1 < (rState L j).scene := by
    simp [rState] <;> omega
  have hlt : (rState L j).idx + 2 < (rState L j).log.length := by
    simp [rState] <;> omega
  simp only [redo]
  rw [if_pos hguard, if_pos hlt]
  dsimp only [rState]
  have hsn : IsNorm ((initialSnap :: L).getD (j - 1 + 2) ⟨[], 0, none⟩) :=
    getD_norm _ (isNorm_mem_cons L hnorm) _ _ isNorm_initialSnap
  rw [setLive_of_norm _ _ hsn]
  simp only [rState]
  rw [show j - 1 + 2 = j + 1 from by omega, show j - 1 + 1 = j from by omega,
    show j + 1 - 1 = j from by omega, show j - 1 + 3 = j + 2 from by omega]
  rfl

lemma getLastD_take (L : List Snap) (m : Nat) (hm : m ≤ L.length) (h1 : 1 ≤ m) (d : Snap) :
    (L.take m).getLastD d = L.getD (m - 1) d := by
  induction L generalizing m d with
  | nil => simp at hm; omega
  | cons a l ih =>
    cases m with
    | zero => omega
    | succ m' =>
      cases m' with
      | zero => simp
      | succ m'' =>
        rw [List.take_succ_cons, List.getLastD_cons]
        have hlen : m'' + 1 ≤ l.length := by
          simp at hm
          omega
        rw [ih (m'' + 1) hlen (by omega) a]
        have hb : m'' < l.length := by omega
        simp only [Nat.add_sub_cancel]
        rw [List.getD_eq_getElem l a hb, List.getD_cons_succ, List.getD_eq_getElem l d hb]

lemma undo_iter (L : List Snap) (hL : L ≠ []) (hnorm : ∀ p ∈ L, IsNorm p) :
    ∀ k, 1 ≤ k → k ≤ L.length →
    undo^[k] (midState L.dropLast (L.getLastD initialSnap)) = uState L k := by
  intro k
  induction k with
  | zero => omega
  | succ k ih =>
    intro _ hk
    by_cases hk0 : k = 0
    · subst hk0
      rw [Function.iterate_one]
      exact undo_afterEdits L hL hnorm
    · rw [Function.iterate_succ_apply', ih (by omega) (by omega),
        undo_step L hnorm k (by omega) (by omega)]

lemma redo_iter (L : List Snap) (hL : L ≠ []) (hnorm : ∀ p ∈ L, IsNorm p) :
    ∀ j, 1 ≤ j → j ≤ L.length →
    redo^[j] (uState L L.length) = rState L j := by
  intro j
  induction j with
  | zero => omega
  | succ j ih =>
    intro _ hj
    by_cases hj0 : j = 0
    · subst hj0
      rw [Function.iterate_one]
      exact redo_bottom L hL hnorm
    · rw [Function.iterate_succ_apply', ih (by omega) (by omega),
        redo_step L hnorm j (by omega) (by omega)]

/-- C2 (amended): for every sequence of at most 100 content edits from the
initial empty buffer (within the history capacity, so no eviction occurs),
the state after k undos equals the state after the first n - k edits,
token-for-token with cursor and selection, for every k in 1..n; and n undos
followed by n redos restore the state after the last edit. -/
theorem undo_redo_round_trip (es : List Snap) (hcap : es.length ≤ HISTORY_MAX) :
    (∀ k, 1 ≤ k → k ≤ es.length →
      snapshotFromRefs (undo^[k] (applyEdits es initSt))
        = snapshotFromRefs (applyEdits (es.take (es.length - k)) initSt))
    ∧ snapshotFromRefs (redo^[es.length] (undo^[es.length] (applyEdits es initSt)))
        = snapshotFromRefs (applyEdits es initSt) := by
  by_cases hne : es = []
  · subst hne
    exact ⟨fun k h1 hk => by simp at hk; omega, rfl⟩
  have hLnorm : ∀ p ∈ es.map normSnap, IsNorm p := by
    intro p hp
    rcases List.mem_map.mp hp with ⟨e, _, he⟩
    rw [← he]
    exact norm_idem e
  have hLne : es.map normSnap ≠ [] := by simp [hne]
  have h1len : 1 ≤ es.length := List.length_pos.mpr hne
  have hLlen : (es.map normSnap).length = es.length := List.length_map es normSnap
  have hafter : applyEdits es initSt
      = midState ((es.map normSnap).dropLast) ((es.map normSnap).getLastD initialSnap) :=
    applyEdits_initSt es hne hcap
  have hsnapU : ∀ k, snapshotFromRefs (uState (es.map normSnap) k)
      = (initialSnap :: es.map normSnap).getD ((es.map normSnap).length - k) initialSnap :=
    fun _ => rfl
  constructor
  · intro k h1 hk
    rw [hafter, undo_iter (es.map normSnap) hLne hLnorm k h1 (by omega)]
    by_cases hkn : k = es.length
    · subst hkn
      rw [hsnapU, show (es.map normSnap).length - es.length = 0 from by omega]
      rw [show es.length - es.length = 0 from by omega, List.take_zero]
      rfl
    · have hm1 : 1 ≤ es.length - k := by omega
      have htne : es.take (es.length - k) ≠ [] := by
        apply List.ne_nil_of_length_pos
        rw [List.length_take]
        omega
      have htcap : (es.take (es.length - k)).length ≤ HISTORY_MAX := by
        rw [List.length_take]
        omega
      rw [hsnapU, applyEdits_initSt _ htne htcap, snapshot_midState]
      rw [show (es.take (es.length - k)).map normSnap
            = (es.map normSnap).take (es.length - k) from List.map_take normSnap es (es.length - k)]
      rw [getLastD_take (es.map normSnap) (es.length - k) (by omega) (by omega) initialSnap]
      rw [show (es.map normSnap).length - k = (es.length - k - 1) + 1 from by omega]
      rw [List.getD_cons_succ]
  · rw [hafter, undo_iter (es.map normSnap) hLne hLnorm es.length (by omega) (by omega)]
    rw [show es.length = (es.map normSnap).length from hLlen.symm]
    rw [redo_iter (es.map normSnap) hLne hLnorm (es.map normSnap).length (by omega) (by omega)]
    rw [snapshot_midState]
    have h2 := getLastD_take (es.map normSnap) (es.map normSnap).length (le_refl _)
      (by omega) initialSnap
    rw [List.take_length] at h2
    rw [h2]
    rfl

def c2Edit : Snap := ⟨[CommandItem.mark .next], 1, none⟩

def c2Edits : List Snap := List.replicate 101 c2Edit

set_option maxRecDepth 10000 in
/-- C2 counterexample: with 101 identical one-token edits the history
capacity of 100 evicts the oldest snapshot, and the state after 100 undos
(an empty buffer, because undo restores an explicit empty list at index 0)
differs from the state after the first edit (a one-token buffer). -/
theorem undo_intermediate_cex :
    ¬ (snapshotFromRefs (undo^[100] (applyEdits c2Edits initSt))
        = snapshotFromRefs (applyEdits (c2Edits.take (c2Edits.length - 100)) initSt)) := by
  decide

def c2WitnessEdits : List Snap :=
  [⟨[CommandItem.special .heat], 1, none⟩, ⟨[CommandItem.special .rage], 1, none⟩]

theorem undo_redo_round_trip_witness :
    snapshotFromRefs (undo^[1] (applyEdits c2WitnessEdits initSt))
        = snapshotFromRefs (applyEdits (c2WitnessEdits.take (c2WitnessEdits.length - 1)) initSt)
    ∧ snapshotFromRefs (redo^[c2WitnessEdits.length]
          (undo^[c2WitnessEdits.length] (applyEdits c2WitnessEdits initSt)))
        = snapshotFromRefs (applyEdits c2WitnessEdits initSt) :=
  ⟨(undo_redo_round_trip c2WitnessEdits (by decide)).1 1 (by decide) (by decide),
   (undo_redo_round_trip c2WitnessEdits (by decide)).2⟩

/-- The range of findSpecialFromKeys: heat or rage (or none). -/
inductive SpecKey where
  | heat
  | rage
deriving DecidableEq

def HOLD_FRAME_THRESHOLD : Nat := 10

def HEAT_DOUBLE_PRESS_MS : Nat := 400

/-- Whether a direction value is a hold variant; mirrors the source's
endsWith hold test on the string value. -/
def isHoldDir : DirectionValue → Bool
  | .uhold | .dhold | .fhold | .bhold | .ubhold | .ufhold | .dbhold | .dfhold => true
  | _ => false

/-- Appending the hold suffix to the string value: each base direction maps
to its hold variant; hold variants are unchanged (the source strips and
re-adds the suffix); n never reaches this point behind the guard. -/
def holdVariant : DirectionValue → DirectionValue
  | .u => .uhold
  | .d => .dhold
  | .f => .fhold
  | .b => .bhold
  | .ub => .ubhold
  | .uf => .ufhold
  | .db => .dbhold
  | .df => .dfhold
  | d => d

/-- Stripping the hold suffix from the string value; identity on values
without the suffix. -/
def stripHold : DirectionValue → DirectionValue
  | .uhold => .u
  | .dhold => .d
  | .fhold => .f
  | .bhold => .b
  | .ubhold => .ub
  | .ufhold => .uf
  | .dbhold => .db
  | .dfhold => .df
  | d => d

/-- toHoldNotation in useCommandInput.ts lines 16-21: null and n give null,
a value already ending in hold is returned unchanged, otherwise the hold
suffix is appended to the base value. -/
def toHoldNotation : Option DirectionValue → Option DirectionValue
  | none => none
  | some d => if d = DirectionValue.n then none else
      if isHoldDir d then some d else some (holdVariant d)

/-- The cross-tick sampler refs of useCommandInput.ts lines 120-126:
prevDirection, framesHeld, prevButton, prevSpecial,
didReplaceHeatWithSmashRef and lastHeatPressTimeRef. -/
structure SamplerSt where
  prevDirection : Option DirectionValue
  framesHeld : Nat
  prevButton : Option ButtonValue
  prevSpecial : Option SpecKey
  didReplaceHeatWithSmash : Bool
  lastHeatPressTime : Nat
deriving DecidableEq

/-- Just the direction-related sampler refs. -/
structure DirState where
  prevDirection : Option DirectionValue
  framesHeld : Nat
deriving DecidableEq

/-- The direction decode step of the tick (useCommandInput.ts lines
675-688): edge-triggered tap emission on change, hold-counter increment on
an unchanged non-neutral direction with a hold token when the counter first
reaches the threshold. -/
def dirDecode (dir : Option DirectionValue) (st : DirState) : DirState × List CommandItem :=
  if dir ≠ st.prevDirection then
    match dir with
    | some d => (⟨dir, 1⟩, [CommandItem.direction d])
    | none => (⟨dir, 0⟩, [])
  else
    match dir with
    | some d =>
      if d ≠ DirectionValue.n then
        let fh := st.framesHeld + 1
        (⟨st.prevDirection, fh⟩,
          if fh = HOLD_FRAME_THRESHOLD then
            match toHoldNotation (some d) with
            | some h => [CommandItem.direction h]
            | none => []
          else [])
      else (st, [])
    | none => (st, [])

/-- The button decode step of the tick (lines 690-693): edge-triggered. -/
def btnDecode (btn : Option ButtonValue) (prevButton : Option ButtonValue) :
    Option ButtonValue × List CommandItem :=
  if btn ≠ prevButton then
    (btn, match btn with
      | some b => [CommandItem.button b]
      | none => [])
  else (prevButton, [])

/-- The special decode step of the tick (lines 695-719): edge-triggered;
for heat, a double press within the window makes the emission heatSmash,
and when the token before the cursor is a heat token the merge flag is set
and the double-press timer is reset to zero, otherwise the emission time is
recorded.  Returns the new (prevSpecial, didReplaceHeatWithSmash,
lastHeatPressTime) and the emitted tokens. -/
def specialDecode (now : Nat) (spc : Option SpecKey) (prevSpecial : Option SpecKey)
    (didReplace : Bool) (lastHeat : Nat) (commands : List CommandItem) (cursor : Nat) :
    (Option SpecKey × Bool × Nat) × List CommandItem :=
  if spc ≠ prevSpecial then
    match spc with
    | none => ((spc, didReplace, lastHeat), [])
    | some SpecKey.rage => ((spc, didReplace, lastHeat), [CommandItem.special .rage])
    | some SpecKey.heat =>
      let prevCmd := if 0 < cursor then commands[cursor - 1]? else none
      let isDouble : Bool := decide (0 < lastHeat) && decide (now - lastHeat < HEAT_DOUBLE_PRESS_MS)
      let willReplace : Bool := isDouble && decide (prevCmd = some (CommandItem.special .heat))
      ((spc, willReplace, if willReplace then 0 else now),
        [CommandItem.special (if isDouble then SpecialValue.heatSmash else SpecialValue.heat)])
  else ((prevSpecial, didReplace, lastHeat), [])

/-- The decode phase of one tick: direction, button and special decode in
order, with the new sampler refs and the concatenated toAdd list. -/
def tickDecode (now : Nat) (dir : Option DirectionValue) (btn : Option ButtonValue)
    (spc : Option SpecKey) (σ : SamplerSt) (commands : List CommandItem) (cursor : Nat) :
    SamplerSt × List CommandItem :=
  let d := dirDecode dir ⟨σ.prevDirection, σ.framesHeld⟩
  let b := btnDecode btn σ.prevButton
  let sp := specialDecode now spc σ.prevSpecial σ.didReplaceHeatWithSmash σ.lastHeatPressTime
    commands cursor
  (⟨d.1.prevDirection, d.1.framesHeld, b.1, sp.1.1, sp.1.2.1, sp.1.2.2⟩,
   d.2 ++ b.2 ++ sp.2)

/-- The prevIsSameDirTap test in the tick commit (lines 747-750). -/
def prevIsSameDirTap (prevCmd : Option CommandItem) (holdBase : DirectionValue) : Bool :=
  match prevCmd with
  | some (CommandItem.direction dp) => !isHoldDir dp && decide (dp = holdBase)
  | _ => false

/-- The commit phase of one tick (lines 721-770): push the insert-trigger
save, then either replace the preceding heat token by the heatSmash token,
or collapse a tap direction into its hold variant when the only emission is
the matching hold token, or splice toAdd in at the cursor or over the
selection; the selection is cleared and the cursor lands after the
replaced or inserted tokens (with the commands-change clamping applied). -/
def tickCommit (toAdd : List CommandItem) (didReplaceHeat : Bool) (s : St) : St :=
  if toAdd = [] then s
  else
    let s1 := tryPushUndoState .insert s
    let hasSel : Bool := match s.sel with
      | some r => decide (r.start < r.stop)
      | none => false
    let selStart := match s.sel with
      | some r => r.start
      | none => 0
    let selEnd := match s.sel with
      | some r => r.stop
      | none => 0
    let idx := s.cursor
    let at_ := if hasSel then selStart else min idx s.commands.length
    let endAt := if hasSel then selEnd else at_
    let replaceHeat : Bool := didReplaceHeat && decide (toAdd = [CommandItem.special .heatSmash])
    let holdItem : Option DirectionValue := match toAdd with
      | [CommandItem.direction d] => some d
      | _ => none
    let onlyHold : Option DirectionValue := match holdItem with
      | some d => if isHoldDir d then some d else none
      | none => none
    let cond1 : Bool := replaceHeat && decide (0 < at_)
        && decide (s.commands[at_ - 1]? = some (CommandItem.special .heat))
    let cond2 : Bool := !cond1 && decide (0 < at_) && (match onlyHold with
      | some h => prevIsSameDirTap s.commands[at_ - 1]? (stripHold h)
      | none => false)
    let newCommands :=
      if cond1 then
        s.commands.take (at_ - 1) ++ [CommandItem.special .heatSmash] ++ s.commands.drop endAt
      else if cond2 then
        (match onlyHold with
         | some h => s.commands.take (at_ - 1) ++ [CommandItem.direction h] ++ s.commands.drop endAt
         | none => s.commands.take at_ ++ toAdd ++ s.commands.drop endAt)
      else s.commands.take at_ ++ toAdd ++ s.commands.drop endAt
    let newCursor :=
      if cond2 || replaceHeat then (if hasSel then selStart else idx)
      else (if hasSel then selStart + toAdd.length else min idx s.commands.length + toAdd.length)
    setLive ⟨newCommands, newCursor, none⟩ s1

/-- One sampler tick outside text mode: decode then commit. -/
def tick (now : Nat) (dir : Option DirectionValue) (btn : Option ButtonValue)
    (spc : Option SpecKey) (σ : SamplerSt) (s : St) : SamplerSt × St :=
  let d := tickDecode now dir btn spc σ s.commands s.cursor
  (d.1, tickCommit d.2 d.1.didReplaceHeatWithSmash s)

/-- Iterate the direction decode over consecutive ticks with a constant
decoded direction, collecting each tick's emissions. -/
def dirRun (dir : Option DirectionValue) : Nat → DirState → DirState × List (List CommandItem)
  | 0, st => (st, [])
  | m + 1, st =>
    let d := dirDecode dir st
    let rest := dirRun dir m d.1
    (rest.1, d.2 :: rest.2)

lemma dirDecode_change (d : DirectionValue) (st : DirState)
    (hprev : st.prevDirection ≠ some d) :
    dirDecode (some d) st = (⟨some d, 1⟩, [CommandItem.direction d]) := by
  rw [dirDecode, if_pos (Ne.symm hprev)]

lemma dirDecode_held (d : DirectionValue) (j : Nat) (hn : d ≠ DirectionValue.n)
    (hhold : isHoldDir d = false) :
    dirDecode (some d) ⟨some d, j⟩
      = (⟨some d, j + 1⟩, if j + 1 = HOLD_FRAME_THRESHOLD
          then [CommandItem.direction (holdVariant d)] else []) := by
  rw [dirDecode, if_neg (by simp)]
  simp [hn, toHoldNotation, hhold]

lemma dirRun_held (d : DirectionValue) (hn : d ≠ DirectionValue.n)
    (hhold : isHoldDir d = false) :
    ∀ (m j : Nat), (dirRun (some d) m ⟨some d, j⟩).2
      = (List.range m).map (fun k => if j + 1 + k = HOLD_FRAME_THRESHOLD
          then [CommandItem.direction (holdVariant d)] else []) := by
  intro m
  induction m with
  | zero => intro j; rfl
  | succ m ih =>
    intro j
    simp only [dirRun, dirDecode_held d j hn hhold]
    rw [ih (j + 1), List.range_succ_eq_map]
    simp only [List.map_cons, List.map_map]
    congr 1
    apply List.map_congr_left
    intro k _
    simp only [Function.comp_apply]
    exact if_congr (by omega) rfl rfl

/-- C7: over an unbroken run of m consecutive ticks in which the decoded
direction is the same non-neutral value d (starting from a state where the
previous tick's direction differed), exactly one tap token is emitted on
the first tick, exactly one hold-variant token is emitted on the tenth tick
when the run reaches ten ticks, and nothing else is emitted. -/
theorem direction_run_emissions (d : DirectionValue) (m : Nat) (st : DirState)
    (hprev : st.prevDirection ≠ some d) (hn : d ≠ DirectionValue.n)
    (hhold : isHoldDir d = false) (hm : 1 ≤ m) :
    (dirRun (some d) m st).2
      = (List.range m).map (fun k =>
          if k = 0 then [CommandItem.direction d]
          else if k = 9 then [CommandItem.direction (holdVariant d)]
          else []) := by
  cases m with
  | zero => omega
  | succ m' =>
    simp only [dirRun, dirDecode_change d st hprev]
    rw [dirRun_held d hn hhold m' 1, List.range_succ_eq_map]
    simp only [List.map_cons, List.map_map]
    congr 1
    apply List.map_congr_left
    intro k _
    simp only [Function.comp_apply]
    rw [if_neg (show ¬ Nat.succ k = 0 by omega)]
    exact if_congr (by simp only [HOLD_FRAME_THRESHOLD]; omega) rfl rfl

theorem direction_run_emissions_witness :
    (dirRun (some DirectionValue.f) 12 ⟨none, 0⟩).2
      = (List.range 12).map (fun k =>
          if k = 0 then [CommandItem.direction DirectionValue.f]
          else if k = 9 then [CommandItem.direction (holdVariant DirectionValue.f)]
          else []) :=
  direction_run_emissions DirectionValue.f 12 ⟨none, 0⟩ (by decide) (by decide) (by decide)
    (by decide)



lemma isHoldDir_holdVariant (d : DirectionValue) (hd : isHoldDir d = false)
    (hn : d ≠ DirectionValue.n) : isHoldDir (holdVariant d) = true := by
  revert hd hn
  cases d <;> decide

lemma stripHold_holdVariant (d : DirectionValue) (hd : isHoldDir d = false)
    (hn : d ≠ DirectionValue.n) : stripHold (holdVariant d) = d := by
  revert hd hn
  cases d <;> decide

/-- C6: for a buffer ending in a tap (non-hold) direction token with the
cursor immediately after it and no active selection, a tick whose only
emitted token is the hold variant of that direction replaces the tap token
in place: the buffer keeps its length, its last token becomes the hold
variant, and the cursor ends just past the replaced token. -/
theorem hold_collapse (now : Nat) (cs : List CommandItem) (d : DirectionValue)
    (σ : SamplerSt) (s : St)
    (hcmd : s.commands = cs ++ [CommandItem.direction d])
    (hcur : s.cursor = cs.length + 1)
    (hsel : s.sel = none)
    (hd : isHoldDir d = false) (hn : d ≠ DirectionValue.n)
    (hprev : σ.prevDirection = some d)
    (hfh : σ.framesHeld + 1 = HOLD_FRAME_THRESHOLD) :
    (tick now (some d) σ.prevButton σ.prevSpecial σ s).2.commands
        = cs ++ [CommandItem.direction (holdVariant d)]
    ∧ (tick now (some d) σ.prevButton σ.prevSpecial σ s).2.commands.length
        = s.commands.length
    ∧ (tick now (some d) σ.prevButton σ.prevSpecial σ s).2.cursor = cs.length + 1 := by
  have hσ : (tickDecode now (some d) σ.prevButton σ.prevSpecial σ s.commands s.cursor)
      = (⟨some d, σ.framesHeld + 1, σ.prevButton, σ.prevSpecial, σ.didReplaceHeatWithSmash,
          σ.lastHeatPressTime⟩, [CommandItem.direction (holdVariant d)]) := by
    simp [tickDecode, dirDecode, btnDecode, specialDecode, hprev, hfh, hn, toHoldNotation, hd]
  have htap : (cs ++ [CommandItem.direction d])[cs.length]?
      = some (CommandItem.direction d) := List.getElem?_concat_length cs _
  simp only [tick, hσ]
  simp only [tickCommit]
  rw [if_neg (by simp)]
  simp only [hsel, hcmd, hcur, setLive, normSnap, clampSel]
  simp [List.length_append, Nat.min_self, List.getElem?_append_right, htap, hd,
    isHoldDir_holdVariant d hd hn, stripHold_holdVariant d hd hn, prevIsSameDirTap,
    List.take_left, List.drop_length]

lemma tick_heat_fresh (now : Nat) (σ : SamplerSt) (s : St)
    (hdir : σ.prevDirection = none) (hbtn : σ.prevButton = none)
    (hspc : σ.prevSpecial ≠ some SpecKey.heat) (hlast : σ.lastHeatPressTime = 0)
    (hsel : s.sel = none) (hcur : s.cursor = s.commands.length) :
    tick now none none (some SpecKey.heat) σ s
      = (⟨none, σ.framesHeld, none, some SpecKey.heat, false, now⟩,
         { tryPushUndoState .insert s with
             commands := s.commands ++ [CommandItem.special SpecialValue.heat]
             cursor := s.commands.length + 1
             sel := none }) := by
  have hσ : tickDecode now none none (some SpecKey.heat) σ s.commands s.cursor
      = (⟨none, σ.framesHeld, none, some SpecKey.heat, false, now⟩,
         [CommandItem.special SpecialValue.heat]) := by
    simp [tickDecode, dirDecode, btnDecode, specialDecode, hdir, hbtn, Ne.symm hspc, hlast]
  simp only [tick, hσ, tickCommit]
  rw [if_neg (by simp)]
  simp [hsel, hcur, setLive, normSnap, clampSel, List.take_length, List.drop_length,
    Nat.min_self, List.length_append]

lemma tick_release (now : Nat) (σ : SamplerSt) (s : St)
    (hdir : σ.prevDirection = none) (hbtn : σ.prevButton = none) :
    tick now none none none σ s = ({ σ with prevSpecial := none }, s) := by
  have hσ : tickDecode now none none none σ s.commands s.cursor
      = ({ σ with prevSpecial := none }, []) := by
    by_cases h : σ.prevSpecial = none
    · simp [tickDecode, dirDecode, btnDecode, specialDecode, hdir, hbtn, h]
    · simp [tickDecode, dirDecode, btnDecode, specialDecode, hdir, hbtn, Ne.symm h]
  simp [tick, hσ, tickCommit]

lemma tick_heat_merge (now : Nat) (σ : SamplerSt) (s : St) (cs : List CommandItem)
    (hdir : σ.prevDirection = none) (hbtn : σ.prevButton = none)
    (hspc : σ.prevSpecial ≠ some SpecKey.heat)
    (hlast : 0 < σ.lastHeatPressTime)
    (hwin : now - σ.lastHeatPressTime < HEAT_DOUBLE_PRESS_MS)
    (hcmd : s.commands = cs ++ [CommandItem.special SpecialValue.heat])
    (hsel : s.sel = none) (hcur : s.cursor = s.commands.length) :
    tick now none none (some SpecKey.heat) σ s
      = (⟨none, σ.framesHeld, none, some SpecKey.heat, true, 0⟩,
         { tryPushUndoState .insert s with
             commands := cs ++ [CommandItem.special SpecialValue.heatSmash]
             cursor := cs.length + 1
             sel := none }) := by
  have hcl : s.commands.length = cs.length + 1 := by
    rw [hcmd]
    simp
  have hpc : s.commands[s.cursor - 1]? = some (CommandItem.special SpecialValue.heat) := by
    rw [hcmd, hcur, hcmd]
    simp [List.getElem?_concat_length]
  have hσ : tickDecode now none none (some SpecKey.heat) σ s.commands s.cursor
      = (⟨none, σ.framesHeld, none, some SpecKey.heat, true, 0⟩,
         [CommandItem.special SpecialValue.heatSmash]) := by
    have hc0 : 0 < s.cursor := by omega
    simp [tickDecode, dirDecode, btnDecode, specialDecode, hdir, hbtn, Ne.symm hspc, hlast,
      hwin, hc0, hpc]
  simp only [tick, hσ, tickCommit]
  rw [if_neg (by simp)]
  have htap : s.commands[s.commands.length - 1]? = some (CommandItem.special SpecialValue.heat) := by
    rw [← hcur]
    exact hpc
  simp [hsel, hcur, setLive, normSnap, clampSel, Nat.min_self, hcl, hcmd,
    List.getElem?_concat_length, List.take_left, List.drop_length, List.length_append]

/-- Three consecutive sampler ticks: heat pressed, released, pressed again. -/
def heatMergeRun (t1 t2 t3 : Nat) (σ : SamplerSt) (s : St) : SamplerSt × St :=
  let r1 := tick t1 none none (some SpecKey.heat) σ s
  let r2 := tick t2 none none none r1.1 r1.2
  tick t3 none none (some SpecKey.heat) r2.1 r2.2

/-- C5: from a quiescent sampler, a heat activation, a release tick, and a
second heat activation within the 400 ms window (with nothing else
inserted between the two) leave the buffer ending in exactly one heatSmash
token: the heat token emitted by the first activation is replaced in place
(the buffer length is unchanged by the merge), and the double-press timer
is reset to zero after the merge. -/
theorem heat_double_press_merge (t1 t2 t3 : Nat) (σ : SamplerSt) (s : St)
    (hdir : σ.prevDirection = none) (hbtn : σ.prevButton = none)
    (hspc : σ.prevSpecial ≠ some SpecKey.heat) (hlast : σ.lastHeatPressTime = 0)
    (ht1 : 0 < t1) (hwin : t3 - t1 < HEAT_DOUBLE_PRESS_MS)
    (hsel : s.sel = none) (hcur : s.cursor = s.commands.length) :
    (tick t1 none none (some SpecKey.heat) σ s).2.commands
        = s.commands ++ [CommandItem.special SpecialValue.heat]
    ∧ (heatMergeRun t1 t2 t3 σ s).2.commands
        = s.commands ++ [CommandItem.special SpecialValue.heatSmash]
    ∧ (heatMergeRun t1 t2 t3 σ s).2.commands.length
        = (tick t1 none none (some SpecKey.heat) σ s).2.commands.length
    ∧ (heatMergeRun t1 t2 t3 σ s).1.lastHeatPressTime = 0
    ∧ (heatMergeRun t1 t2 t3 σ s).2.cursor = s.commands.length + 1 := by
  have h1 := tick_heat_fresh t1 σ s hdir hbtn hspc hlast hsel hcur
  have h2 := tick_release t2 ⟨none, σ.framesHeld, none, some SpecKey.heat, false, t1⟩
    ({ tryPushUndoState .insert s with
        commands := s.commands ++ [CommandItem.special SpecialValue.heat]
        cursor := s.commands.length + 1
        sel := none }) rfl rfl
  have h3 := tick_heat_merge t3 ⟨none, σ.framesHeld, none, none, false, t1⟩
    ({ tryPushUndoState .insert s with
        commands := s.commands ++ [CommandItem.special SpecialValue.heat]
        cursor := s.commands.length + 1
        sel := none }) s.commands rfl rfl (by simp) (by simpa using ht1) (by simpa using hwin)
    (by simp) (by simp) (by simp)
  refine ⟨?_, ?_, ?_, ?_, ?_⟩ <;>
    simp only [heatMergeRun, h1, h2, h3] <;>
    simp

def c6Sampler : SamplerSt := ⟨some DirectionValue.f, 9, none, none, false, 0⟩

def c6State : St :=
  ⟨[CommandItem.button .b1, CommandItem.direction .f], 2, none, [initialSnap], 0, 1, false⟩

theorem hold_collapse_witness :
    (tick 0 (some DirectionValue.f) c6Sampler.prevButton c6Sampler.prevSpecial c6Sampler
        c6State).2.commands
      = [CommandItem.button .b1, CommandItem.direction .fhold]
    ∧ (tick 0 (some DirectionValue.f) c6Sampler.prevButton c6Sampler.prevSpecial c6Sampler
        c6State).2.commands.length = c6State.commands.length
    ∧ (tick 0 (some DirectionValue.f) c6Sampler.prevButton c6Sampler.prevSpecial c6Sampler
        c6State).2.cursor = 2 := by
  have h := hold_collapse 0 [CommandItem.button .b1] DirectionValue.f c6Sampler c6State rfl rfl
    rfl (by decide) (by decide) rfl (by decide)
  simpa using h

def c5Sampler : SamplerSt := ⟨none, 0, none, none, false, 0⟩

theorem heat_double_press_merge_witness :
    (tick 100 none none (some SpecKey.heat) c5Sampler initSt).2.commands
        = [CommandItem.special SpecialValue.heat]
    ∧ (heatMergeRun 100 200 300 c5Sampler initSt).2.commands
        = [CommandItem.special SpecialValue.heatSmash]
    ∧ (heatMergeRun 100 200 300 c5Sampler initSt).2.commands.length
        = (tick 100 none none (some SpecKey.heat) c5Sampler initSt).2.commands.length
    ∧ (heatMergeRun 100 200 300 c5Sampler initSt).1.lastHeatPressTime = 0
    ∧ (heatMergeRun 100 200 300 c5Sampler initSt).2.cursor = 1 := by
  have h := heat_double_press_merge 100 200 300 c5Sampler initSt rfl rfl (by decide) rfl
    (by decide) (by decide) rfl rfl
  simpa [initSt] using h

end Tekken

namespace Tekken

/-- The directions part of the KeyMapping config: key code lists for the
four orthogonal directions and n, plus the optional dedicated diagonal
bindings of the type (present in the KeyMapping interface but not consulted
by findDirectionFromKeys in this version of the source). -/
structure DirectionsMap where
  u : List String
  d : List String
  f : List String
  b : List String
  n : List String
  ub : Option (List String) := none
  uf : Option (List String) := none
  db : Option (List String) := none
  df : Option (List String) := none
deriving DecidableEq

structure SpecialKeys where
  heat : List String
  rage : List String
deriving DecidableEq

/-- KeyMapping in types/index.ts: directions, buttons (a record from
button-combination names to key code lists) and special keys. -/
structure KeyMapping where
  directions : DirectionsMap
  buttons : List (String × List String)
  special : SpecialKeys
deriving DecidableEq

/-- setHasAll in keyMapping.ts: every key of the list is in the pressed
set. -/
def setHasAll (s : List String) (keys : List String) : Bool :=
  keys.all (fun k => s.contains k)

/-- getDiagonalKeys in keyMapping.ts lines 59-68: each diagonal is the
concatenation of its two orthogonal key lists. -/
def getDiagonalKeys (dirs : DirectionsMap) : List (DirectionValue × List String) :=
  [(DirectionValue.ub, dirs.u ++ dirs.b), (DirectionValue.uf, dirs.u ++ dirs.f),
   (DirectionValue.db, dirs.d ++ dirs.b), (DirectionValue.df, dirs.d ++ dirs.f)]

/-- findDirectionFromKeys in keyMapping.ts lines 71-90: scan the diagonals
in order, returning the first whose key list is non-empty and fully held,
then the four singles in order u, d, f, b; otherwise null. -/
def findDirectionFromKeys (pressedKeys : List String) (mapping : KeyMapping) :
    Option DirectionValue :=
  let dirs := mapping.directions
  match (getDiagonalKeys dirs).findSome?
      (fun p => if p.2 ≠ [] ∧ setHasAll pressedKeys p.2 then some p.1 else none) with
  | some dv => some dv
  | none =>
    ([(DirectionValue.u, dirs.u), (DirectionValue.d, dirs.d),
      (DirectionValue.f, dirs.f), (DirectionValue.b, dirs.b)] :
        List (DirectionValue × List String)).findSome?
      (fun p => if p.2 ≠ [] ∧ setHasAll pressedKeys p.2 then some p.1 else none)

/-- The decoder as the specification words it: a single fixed priority
list, diagonals ub, uf, db, df first and then u, d, f, b, each candidate
matching only when its key list is non-empty and all its keys are held,
with the first match returned. -/
def specFindDirection (pressedKeys : List String) (mapping : KeyMapping) :
    Option DirectionValue :=
  let dirs := mapping.directions
  ([(DirectionValue.ub, dirs.u ++ dirs.b), (DirectionValue.uf, dirs.u ++ dirs.f),
    (DirectionValue.db, dirs.d ++ dirs.b), (DirectionValue.df, dirs.d ++ dirs.f),
    (DirectionValue.u, dirs.u), (DirectionValue.d, dirs.d),
    (DirectionValue.f, dirs.f), (DirectionValue.b, dirs.b)] :
      List (DirectionValue × List String)).findSome?
    (fun p => if p.2 ≠ [] ∧ setHasAll pressedKeys p.2 then some p.1 else none)

lemma findSome?_append_match {α β : Type} (f : α → Option β) (l1 l2 : List α) :
    List.findSome? f (l1 ++ l2) = (match List.findSome? f l1 with
      | some v => some v
      | none => List.findSome? f l2) := by
  induction l1 with
  | nil => simp
  | cons a l ih =>
    rw [List.cons_append, List.findSome?_cons, List.findSome?_cons]
    cases f a with
    | none => exact ih
    | some v => rfl

lemma findSome?_dir_ne_n (pressed : List String) (l : List (DirectionValue × List String))
    (h : ∀ p ∈ l, p.1 ≠ DirectionValue.n) :
    List.findSome? (fun p => if p.2 ≠ [] ∧ setHasAll pressed p.2 then some p.1 else none) l
      ≠ some DirectionValue.n := by
  induction l with
  | nil => simp
  | cons p l ih =>
    rw [List.findSome?_cons]
    split
    · rename_i v hv
      intro hc
      injection hc with hc1
      subst hc1
      by_cases hcnd : p.2 ≠ [] ∧ setHasAll pressed p.2 = true
      · rw [if_pos hcnd] at hv
        injection hv with hv1
        exact h p (List.mem_cons_self p l) hv1
      · rw [if_neg hcnd] at hv
        exact Option.noConfusion hv
    · exact ih (fun q hq => h q (List.mem_cons_of_mem p hq))

end Tekken

namespace Tekken

lemma holdVariant_ne_n (d : DirectionValue) (hn : d ≠ DirectionValue.n) :
    holdVariant d ≠ DirectionValue.n := by
  revert hn
  cases d <;> decide

lemma toHoldNotation_ne_n (d v : DirectionValue) (h : toHoldNotation (some d) = some v) :
    v ≠ DirectionValue.n := by
  simp only [toHoldNotation] at h
  by_cases hdn : d = DirectionValue.n
  · rw [if_pos hdn] at h
    exact Option.noConfusion h
  · rw [if_neg hdn] at h
    by_cases hh : isHoldDir d = true
    · rw [if_pos hh] at h
      injection h with h1
      rw [← h1]
      exact hdn
    · rw [if_neg hh] at h
      injection h with h1
      rw [← h1]
      exact holdVariant_ne_n d hdn

lemma dirDecode_no_n (dir : Option DirectionValue) (st : DirState)
    (hdir : dir ≠ some DirectionValue.n) :
    CommandItem.direction DirectionValue.n ∉ (dirDecode dir st).2 := by
  unfold dirDecode
  split
  · cases dir with
    | some d =>
      simp only [List.mem_singleton]
      intro heq
      injection heq with he
      exact hdir (by rw [he])
    | none => simp
  · cases dir with
    | some d =>
      dsimp only
      by_cases hdn : d ≠ DirectionValue.n
      · rw [if_pos hdn]
        split
        · cases hh : toHoldNotation (some d) with
          | some v =>
            simp only [hh, List.mem_singleton]
            intro heq
            injection heq with he
            exact toHoldNotation_ne_n d v hh (by rw [he])
          | none => simp [hh]
        · simp
      · rw [if_neg hdn]
        simp
    | none => simp

lemma btnDecode_no_dir (btn prev : Option ButtonValue) :
    CommandItem.direction DirectionValue.n ∉ (btnDecode btn prev).2 := by
  unfold btnDecode
  split
  · cases btn <;> simp
  · simp

lemma specialDecode_no_dir (now : Nat) (spc prev : Option SpecKey) (dr : Bool) (lh : Nat)
    (commands : List CommandItem) (cursor : Nat) :
    CommandItem.direction DirectionValue.n
      ∉ (specialDecode now spc prev dr lh commands cursor).2 := by
  unfold specialDecode
  split
  · match spc with
    | none => simp
    | some SpecKey.rage => simp
    | some SpecKey.heat => simp
  · simp

/-- C10: the direction decoder equals the single-priority-list decoder the
spec describes (diagonals ub, uf, db, df from the concatenated orthogonal
bindings first, then u, d, f, b, each only when its key list is non-empty
and all its keys are held); it never returns the neutral value n; and a
sampler tick fed from the decoder never emits a direction-n token. -/
theorem direction_decoder_priority (pressedKeys : List String) (mapping : KeyMapping) :
    findDirectionFromKeys pressedKeys mapping = specFindDirection pressedKeys mapping
    ∧ findDirectionFromKeys pressedKeys mapping ≠ some DirectionValue.n
    ∧ ∀ (now : Nat) (btn : Option ButtonValue) (spc : Option SpecKey) (σ : SamplerSt)
        (commands : List CommandItem) (cursor : Nat),
        CommandItem.direction DirectionValue.n
          ∉ (tickDecode now (findDirectionFromKeys pressedKeys mapping) btn spc σ
              commands cursor).2 := by
  have heq : findDirectionFromKeys pressedKeys mapping = specFindDirection pressedKeys mapping := by
    unfold findDirectionFromKeys specFindDirection
    dsimp only
    rw [show ([(DirectionValue.ub, mapping.directions.u ++ mapping.directions.b),
        (DirectionValue.uf, mapping.directions.u ++ mapping.directions.f),
        (DirectionValue.db, mapping.directions.d ++ mapping.directions.b),
        (DirectionValue.df, mapping.directions.d ++ mapping.directions.f),
        (DirectionValue.u, mapping.directions.u), (DirectionValue.d, mapping.directions.d),
        (DirectionValue.f, mapping.directions.f), (DirectionValue.b, mapping.directions.b)] :
          List (DirectionValue × List String))
      = getDiagonalKeys mapping.directions
        ++ [(DirectionValue.u, mapping.directions.u), (DirectionValue.d, mapping.directions.d),
            (DirectionValue.f, mapping.directions.f), (DirectionValue.b, mapping.directions.b)]
      from rfl]
    rw [findSome?_append_match]
    split <;> simp [*]
  have hne : findDirectionFromKeys pressedKeys mapping ≠ some DirectionValue.n := by
    rw [heq]
    unfold specFindDirection
    apply findSome?_dir_ne_n
    intro p hp
    simp only [List.mem_cons, List.not_mem_nil, or_false] at hp
    rcases hp with rfl | rfl | rfl | rfl | rfl | rfl | rfl | rfl <;> simp
  refine ⟨heq, hne, ?_⟩
  intro now btn spc σ commands cursor
  intro hmem
  simp only [tickDecode, List.mem_append] at hmem
  rcases hmem with (h | h) | h
  · exact dirDecode_no_n _ _ hne h
  · exact btnDecode_no_dir _ _ h
  · exact specialDecode_no_dir _ _ _ _ _ _ _ h

end Tekken

namespace Tekken

/-- The serialized string of a DirectionValue: in the source the value IS
the string (DirectionNotation is a string union), so this is the identity
table commandsToCopyText uses at the direction case. -/
def dirString : DirectionValue → String
  | .u => "u" | .d => "d" | .f => "f" | .b => "b" | .n => "n"
  | .ub => "ub" | .uf => "uf" | .db => "db" | .df => "df"
  | .uhold => "uhold" | .dhold => "dhold" | .fhold => "fhold" | .bhold => "bhold"
  | .ubhold => "ubhold" | .ufhold => "ufhold" | .dbhold => "dbhold" | .dfhold => "dfhold"

/-- The serialized string of a ButtonValue (the value itself in the
source). -/
def btnString : ButtonValue → String
  | .b1 => "1" | .b2 => "2" | .b3 => "3" | .b4 => "4"
  | .b12 => "1+2" | .b13 => "1+3" | .b14 => "1+4"
  | .b23 => "2+3" | .b24 => "2+4" | .b34 => "3+4"
  | .b123 => "1+2+3" | .b124 => "1+2+4" | .b134 => "1+3+4"
  | .b234 => "2+3+4" | .b1234 => "1+2+3+4"

/-- The serialized string of a SpecialValue (the value itself in the
source). -/
def specialString : SpecialValue → String
  | .heat => "heat" | .heatSmash => "heatSmash" | .rage => "rage"

/-- commandsToCopyText's structural-mark case (commandClipboard.ts lines
26-32): an if chain over bracketl, bracketr, parenl, parenr and tilde with
the fallthrough returning the string next; both the next mark and the
linebreak mark land in the fallthrough. -/
def markString : MarkValue → String
  | .bracketl => "["
  | .bracketr => "]"
  | .parenl => "("
  | .parenr => ")"
  | .tilde => "~"
  | _ => "next"

/-- The text-case escaping of commandsToCopyText line 34: a global replace
of backslash by double backslash followed by a global replace of the
double-quote by backslash quote. -/
def escapeChars (l : List Char) : List Char :=
  (l.flatMap (fun c => if c = '\\' then ['\\', '\\'] else [c])).flatMap
    (fun c => if c = '"' then ['\\', '"'] else [c])

/-- The per-item serialization of commandsToCopyText lines 18-38, as a
character list; a text value is escaped and wrapped in double quotes. -/
def itemCopyChars : CommandItem → List Char
  | .direction d => (dirString d).data
  | .button b => (btnString b).data
  | .special s => (specialString s).data
  | .mark m => (markString m).data
  | .text v => '"' :: (escapeChars v.data ++ ['"'])

/-- Array.prototype.join with a single-space separator. -/
def joinSep : List (List Char) → List Char
  | [] => []
  | [t] => t
  | t :: ts => t ++ ' ' :: joinSep ts

/-- commandsToCopyText in commandClipboard.ts lines 17-40: map each item
to its token text, drop empty strings (the filter Boolean step) and join
with single spaces. -/
def commandsToCopyText (commands : List CommandItem) : String :=
  String.mk (joinSep (((commands.map itemCopyChars).filter (fun t => !t.isEmpty))))

/-- The whitespace class of the JavaScript regular expression \s and of
String.prototype.trim. -/
def wsChars : List Char :=
  ['\t', '\n', '\x0b', '\x0c', '\r', ' ', '\u00A0', '\u1680',
   '\u2000', '\u2001', '\u2002', '\u2003', '\u2004', '\u2005', '\u2006',
   '\u2007', '\u2008', '\u2009', '\u200A', '\u2028', '\u2029', '\u202F',
   '\u205F', '\u3000', '\uFEFF']

def isWsChar (c : Char) : Bool := wsChars.contains c

/-- A character a bare (unquoted) token may contain: non-whitespace and
not the double quote (tokenize line 73). -/
def bareP (c : Char) : Bool := !isWsChar c && !(c == '"')

/-- The quoted-span scanner of tokenize (commandClipboard.ts lines 52-70):
called just after an opening quote, it returns the unescaped span value
and the characters after the closing quote; an unterminated quote consumes
the rest of the input. -/
def scanQuoted : List Char → List Char × List Char
  | [] => ([], [])
  | [c] => if c = '"' then ([], []) else ([c], [])
  | c :: c' :: rest =>
    if c = '\\' ∧ c' = '"' then
      let p := scanQuoted rest
      ('"' :: p.1, p.2)
    else if c = '\\' ∧ c' = '\\' then
      let p := scanQuoted rest
      ('\\' :: p.1, p.2)
    else if c = '"' then ([], c' :: rest)
    else
      let p := scanQuoted (c' :: rest)
      (c :: p.1, p.2)

/-- The tokenizer loop of commandClipboard.ts lines 46-80, fuelled for
structural recursion: each iteration skips whitespace, then reads either a
quoted span or a maximal run of bare characters; every iteration consumes
at least one character, so fuel equal to the input length suffices. -/
def tokenizeGo : Nat → List Char → List (List Char × Bool)
  | 0, _ => []
  | fuel + 1, l =>
    match l.dropWhile isWsChar with
    | [] => []
    | c :: rest =>
      if c = '"' then
        let p := scanQuoted rest
        (p.1, true) :: tokenizeGo fuel p.2
      else
        ((c :: rest).takeWhile bareP, false) :: tokenizeGo fuel ((c :: rest).dropWhile bareP)

def tokenizeChars (l : List Char) : List (List Char × Bool) := tokenizeGo l.length l

/-- String.prototype.trim: strip the whitespace class from both ends. -/
def trimChars (l : List Char) : List Char :=
  ((l.dropWhile isWsChar).reverse.dropWhile isWsChar).reverse

/-- tokenize in commandClipboard.ts lines 45-81: trim, then run the token
loop; a token is its character list plus its quoted flag. -/
def tokenize (s : String) : List (List Char × Bool) := tokenizeChars (trimChars s.data)

/-- Membership in DIRECTION_TOKENS (lines 3-8), returning the decoded
value: the token string is the DirectionNotation value itself. -/
def dirOfString : String → Option DirectionValue
  | "u" => some .u | "d" => some .d | "f" => some .f | "b" => some .b | "n" => some .n
  | "ub" => some .ub | "uf" => some .uf | "db" => some .db | "df" => some .df
  | "uhold" => some .uhold | "dhold" => some .dhold
  | "fhold" => some .fhold | "bhold" => some .bhold
  | "ubhold" => some .ubhold | "ufhold" => some .ufhold
  | "dbhold" => some .dbhold | "dfhold" => some .dfhold
  | _ => none

/-- Membership in BUTTON_TOKENS (lines 10-14), returning the decoded
value. -/
def btnOfString : String → Option ButtonValue
  | "1" => some .b1 | "2" => some .b2 | "3" => some .b3 | "4" => some .b4
  | "1+2" => some .b12 | "1+3" => some .b13 | "1+4" => some .b14
  | "2+3" => some .b23 | "2+4" => some .b24 | "3+4" => some .b34
  | "1+2+3" => some .b123 | "1+2+4" => some .b124 | "1+3+4" => some .b134
  | "2+3+4" => some .b234 | "1+2+3+4" => some .b1234
  | _ => none

/-- The per-token recognition chain of parsePasteText (lines 87-135), in
source order: a quoted token becomes a text item verbatim; a bare token is
tried against the five single-character marks, next, the three specials
with their short forms, the direction set and the button set; anything
else is dropped (none). -/
def parseRaw (t : List Char × Bool) : Option CommandItem :=
  if t.2 then some (.text (String.mk t.1)) else
  let raw := String.mk t.1
  if raw = "[" then some (.mark .bracketl) else
  if raw = "]" then some (.mark .bracketr) else
  if raw = "(" then some (.mark .parenl) else
  if raw = ")" then some (.mark .parenr) else
  if raw = "~" then some (.mark .tilde) else
  if raw = "next" ∨ raw = "▶" then some (.mark .next) else
  if raw = "heat" ∨ raw = "H." then some (.special .heat) else
  if raw = "heatSmash" ∨ raw = "HS." then some (.special .heatSmash) else
  if raw = "rage" ∨ raw = "R." then some (.special .rage) else
  match dirOfString raw with
  | some d => some (.direction d)
  | none =>
    match btnOfString raw with
    | some b => some (.button b)
    | none => none

/-- parsePasteText in commandClipboard.ts lines 84-138: tokenize, then
push the recognized item of each token, silently dropping unrecognized
bare tokens. -/
def parsePasteText (s : String) : List CommandItem :=
  (tokenize s).filterMap parseRaw

end Tekken

namespace Tekken

theorem scanQuoted_length : ∀ (l : List Char), (scanQuoted l).2.length ≤ l.length
  | [] => by simp [scanQuoted]
  | [c] => by unfold scanQuoted; split <;> simp
  | c :: c' :: rest => by
    unfold scanQuoted
    split
    · have h := scanQuoted_length rest
      simpa using Nat.le_trans h (by omega)
    · split
      · have h := scanQuoted_length rest
        simpa using Nat.le_trans h (by omega)
      · split
        · simp
        · have h := scanQuoted_length (c' :: rest)
          simpa using Nat.le_trans h (by simp)

lemma dropWhile_head_false {p : Char → Bool} :
    ∀ (l : List Char) {c : Char} {rest : List Char},
      l.dropWhile p = c :: rest → p c = false
  | [], _, _, h => by simp [List.dropWhile] at h
  | a :: l, c, rest, h => by
    rw [List.dropWhile_cons] at h
    by_cases ha : p a = true
    · rw [if_pos ha] at h
      exact dropWhile_head_false l h
    · rw [if_neg ha] at h
      injection h with h1 h2
      rw [← h1]
      exact Bool.not_eq_true _ |>.mp ha

lemma tokenizeGo_congr :
    ∀ (fuel fuel' : Nat) (l : List Char), l.length ≤ fuel → l.length ≤ fuel' →
      tokenizeGo fuel l = tokenizeGo fuel' l := by
  intro fuel
  induction fuel with
  | zero =>
    intro fuel' l h _
    have hl : l = [] := List.length_eq_zero.mp (Nat.le_zero.mp h)
    subst hl
    cases fuel' <;> rfl
  | succ n ih =>
    intro fuel' l h h'
    cases fuel' with
    | zero =>
      have hl : l = [] := List.length_eq_zero.mp (Nat.le_zero.mp h')
      subst hl
      rfl
    | succ m =>
      show tokenizeGo (n + 1) l = tokenizeGo (m + 1) l
      unfold tokenizeGo
      have hdl : (l.dropWhile isWsChar).length ≤ l.length :=
        (List.dropWhile_suffix isWsChar).sublist.length_le
      cases hdw : l.dropWhile isWsChar with
      | nil => rfl
      | cons c rest =>
        dsimp only
        have hlen : rest.length + 1 ≤ l.length := by
          rw [hdw] at hdl
          simpa using hdl
        by_cases hc : c = '"'
        · rw [if_pos hc, if_pos hc]
          have hq : (scanQuoted rest).2.length ≤ rest.length := scanQuoted_length rest
          rw [ih m (scanQuoted rest).2 (by omega) (by omega)]
        · rw [if_neg hc, if_neg hc]
          have hcb : bareP c = true := by
            have hws : isWsChar c = false := dropWhile_head_false l hdw
            simp [bareP, hws, hc]
          have hdrop : (c :: rest).dropWhile bareP = rest.dropWhile bareP := by
            rw [List.dropWhile_cons, if_pos hcb]
          have hlen2 : (rest.dropWhile bareP).length ≤ rest.length :=
            (List.dropWhile_suffix bareP).sublist.length_le
          rw [hdrop, ih m (rest.dropWhile bareP) (by omega) (by omega)]

lemma tokenizeChars_go (l : List Char) :
    tokenizeChars l =
      match l.dropWhile isWsChar with
      | [] => []
      | c :: rest =>
        if c = '"' then
          ((scanQuoted rest).1, true) :: tokenizeChars (scanQuoted rest).2
        else
          ((c :: rest).takeWhile bareP, false)
            :: tokenizeChars ((c :: rest).dropWhile bareP) := by
  cases l with
  | nil => rfl
  | cons a l' =>
    show tokenizeGo (l'.length + 1) (a :: l') = _
    unfold tokenizeGo
    have hdl : ((a :: l').dropWhile isWsChar).length ≤ l'.length + 1 :=
      (List.dropWhile_suffix isWsChar).sublist.length_le
    cases hdw : (a :: l').dropWhile isWsChar with
    | nil => rfl
    | cons c rest =>
      dsimp only
      have hlen : rest.length + 1 ≤ l'.length + 1 := by
        rw [hdw] at hdl
        simpa using hdl
      by_cases hc : c = '"'
      · rw [if_pos hc, if_pos hc]
        have hq : (scanQuoted rest).2.length ≤ rest.length := scanQuoted_length rest
        rw [show tokenizeChars (scanQuoted rest).2
            = tokenizeGo (scanQuoted rest).2.length (scanQuoted rest).2 from rfl]
        rw [tokenizeGo_congr l'.length (scanQuoted rest).2.length (scanQuoted rest).2
          (by omega) (by omega)]
      · rw [if_neg hc, if_neg hc]
        have hcb : bareP c = true := by
          have hws : isWsChar c = false := dropWhile_head_false (a :: l') hdw
          simp [bareP, hws, hc]
        have hdrop : (c :: rest).dropWhile bareP = rest.dropWhile bareP := by
          rw [List.dropWhile_cons, if_pos hcb]
        have hlen2 : (rest.dropWhile bareP).length ≤ rest.length :=
          (List.dropWhile_suffix bareP).sublist.length_le
        rw [hdrop]
        rw [show tokenizeChars (rest.dropWhile bareP)
            = tokenizeGo (rest.dropWhile bareP).length (rest.dropWhile bareP) from rfl]
        rw [tokenizeGo_congr l'.length (rest.dropWhile bareP).length (rest.dropWhile bareP)
          (by omega) (by omega)]


/-- One-character view of the two sequential global replaces of the
text-escaping step. -/
def encChar (c : Char) : List Char :=
  if c = '\\' then ['\\', '\\'] else if c = '"' then ['\\', '"'] else [c]

lemma escapeChars_nil : escapeChars [] = [] := rfl

lemma escapeChars_cons (c : Char) (v : List Char) :
    escapeChars (c :: v) = encChar c ++ escapeChars v := by
  unfold escapeChars encChar
  rw [List.flatMap_cons, List.flatMap_append]
  congr 1
  by_cases h1 : c = '\\'
  · rw [if_pos h1, if_pos h1]
    subst h1
    decide
  · rw [if_neg h1, if_neg h1]
    by_cases h2 : c = '"'
    · rw [if_pos h2]
      subst h2
      decide
    · rw [if_neg h2]
      simp [h2]

lemma scanQuoted_bsq (l : List Char) :
    scanQuoted ('\\' :: '"' :: l) = ('"' :: (scanQuoted l).1, (scanQuoted l).2) := by
  conv_lhs => unfold scanQuoted
  rw [if_pos (by decide)]

lemma scanQuoted_bsb (l : List Char) :
    scanQuoted ('\\' :: '\\' :: l) = ('\\' :: (scanQuoted l).1, (scanQuoted l).2) := by
  conv_lhs => unfold scanQuoted
  rw [if_neg (by decide), if_pos (by decide)]

lemma scanQuoted_quote (c : Char) (l : List Char) :
    scanQuoted ('"' :: c :: l) = ([], c :: l) := by
  conv_lhs => unfold scanQuoted
  rw [if_neg (fun hh => absurd hh.1 (by decide)), if_neg (fun hh => absurd hh.1 (by decide)),
    if_pos rfl]

lemma scanQuoted_quote_nil : scanQuoted ['"'] = ([], []) := by
  conv_lhs => unfold scanQuoted
  rw [if_pos rfl]

lemma scanQuoted_other (c c' : Char) (l : List Char) (h1 : c ≠ '\\') (h2 : c ≠ '"') :
    scanQuoted (c :: c' :: l)
      = (c :: (scanQuoted (c' :: l)).1, (scanQuoted (c' :: l)).2) := by
  conv_lhs => unfold scanQuoted
  rw [if_neg (fun hh => h1 hh.1), if_neg (fun hh => h1 hh.1), if_neg h2]

/-- Scanning a serialized (escaped, quote-terminated) text value returns
the original value and the characters after the closing quote: the
unescaping in tokenize inverts the escaping in commandsToCopyText. -/
theorem scanQuoted_escape : ∀ (v rest : List Char),
    scanQuoted (escapeChars v ++ '"' :: rest) = (v, rest)
  | [], rest => by
    rw [escapeChars_nil, List.nil_append]
    cases rest with
    | nil => exact scanQuoted_quote_nil
    | cons d rs => exact scanQuoted_quote d rs
  | c :: v', rest => by
    rw [escapeChars_cons]
    by_cases h1 : c = '\\'
    · subst h1
      rw [show encChar '\\' = ['\\', '\\'] from rfl]
      rw [List.append_assoc, List.cons_append, List.cons_append, List.nil_append]
      rw [scanQuoted_bsb, scanQuoted_escape v' rest]
    · by_cases h2 : c = '"'
      · subst h2
        rw [show encChar '"' = ['\\', '"'] from rfl]
        rw [List.append_assoc, List.cons_append, List.cons_append, List.nil_append]
        rw [scanQuoted_bsq, scanQuoted_escape v' rest]
      · rw [show encChar c = [c] from by unfold encChar; rw [if_neg h1, if_neg h2]]
        rw [List.append_assoc, List.cons_append, List.nil_append]
        have hx : ∃ d X, escapeChars v' ++ '"' :: rest = d :: X := by
          cases hE : escapeChars v' ++ '"' :: rest with
          | nil => simp at hE
          | cons d X => exact ⟨d, X, rfl⟩
        obtain ⟨d, X, hX⟩ := hx
        rw [hX, scanQuoted_other c d X h1 h2, ← hX, scanQuoted_escape v' rest]


lemma takeWhile_append_sep {p : Char → Bool} :
    ∀ (t : List Char) (b : Char) (r : List Char), (∀ c ∈ t, p c = true) → p b = false →
      (t ++ b :: r).takeWhile p = t
  | [], b, r, _, hb => by simp [List.takeWhile_cons, hb]
  | a :: t', b, r, h, hb => by
    rw [List.cons_append, List.takeWhile_cons, if_pos (h a (List.mem_cons_self a t'))]
    rw [takeWhile_append_sep t' b r (fun c hc => h c (List.mem_cons_of_mem a hc)) hb]

lemma dropWhile_append_sep {p : Char → Bool} :
    ∀ (t : List Char) (b : Char) (r : List Char), (∀ c ∈ t, p c = true) → p b = false →
      (t ++ b :: r).dropWhile p = b :: r
  | [], b, r, _, hb => by simp [List.dropWhile_cons, hb]
  | a :: t', b, r, h, hb => by
    rw [List.cons_append, List.dropWhile_cons, if_pos (h a (List.mem_cons_self a t'))]
    exact dropWhile_append_sep t' b r (fun c hc => h c (List.mem_cons_of_mem a hc)) hb

lemma takeWhile_all {p : Char → Bool} :
    ∀ (t : List Char), (∀ c ∈ t, p c = true) → t.takeWhile p = t
  | [], _ => rfl
  | a :: t', h => by
    rw [List.takeWhile_cons, if_pos (h a (List.mem_cons_self a t'))]
    rw [takeWhile_all t' (fun c hc => h c (List.mem_cons_of_mem a hc))]

lemma dropWhile_all {p : Char → Bool} :
    ∀ (t : List Char), (∀ c ∈ t, p c = true) → t.dropWhile p = []
  | [], _ => rfl
  | a :: t', h => by
    rw [List.dropWhile_cons, if_pos (h a (List.mem_cons_self a t'))]
    exact dropWhile_all t' (fun c hc => h c (List.mem_cons_of_mem a hc))

lemma dropWhile_eq_self_of_head {p : Char → Bool} (l : List Char)
    (h : ∀ c, l.head? = some c → p c = false) : l.dropWhile p = l := by
  cases l with
  | nil => rfl
  | cons a l' =>
    rw [List.dropWhile_cons, if_neg]
    rw [h a rfl]
    simp

lemma tokenize_ws_cons (c : Char) (l : List Char) (hc : isWsChar c = true) :
    tokenizeChars (c :: l) = tokenizeChars l := by
  rw [tokenizeChars_go, tokenizeChars_go]
  rw [show (c :: l).dropWhile isWsChar = l.dropWhile isWsChar from by
    rw [List.dropWhile_cons, if_pos hc]]

/-- A maximal bare token followed by nothing or by a space is cut off
exactly at the token boundary. -/
lemma tokenize_bare_head (t rest : List Char) (hne : t ≠ [])
    (hall : ∀ c ∈ t, bareP c = true)
    (hrest : rest = [] ∨ ∃ r, rest = ' ' :: r) :
    tokenizeChars (t ++ rest) = (t, false) :: tokenizeChars rest := by
  obtain ⟨c, t', rfl⟩ : ∃ c t', t = c :: t' := by
    cases t with
    | nil => exact absurd rfl hne
    | cons c t' => exact ⟨c, t', rfl⟩
  have hcb := hall c (List.mem_cons_self c t')
  simp only [bareP, Bool.and_eq_true, Bool.not_eq_true', beq_eq_false_iff_ne] at hcb
  obtain ⟨hcw, hcq⟩ := hcb
  have hdw : ((c :: t') ++ rest).dropWhile isWsChar = (c :: t') ++ rest := by
    apply dropWhile_eq_self_of_head
    intro d hd
    rw [List.cons_append, List.head?_cons] at hd
    injection hd with hd
    rw [← hd]
    exact hcw
  rw [tokenizeChars_go, hdw, List.cons_append]
  dsimp only
  rw [if_neg hcq]
  rcases hrest with rfl | ⟨r, rfl⟩
  · rw [List.append_nil]
    rw [takeWhile_all (c :: t') hall, dropWhile_all (c :: t') hall]
  · rw [← List.cons_append]
    rw [takeWhile_append_sep (c :: t') ' ' r hall (by decide)]
    rw [dropWhile_append_sep (c :: t') ' ' r hall (by decide)]

/-- A serialized text token (quoted, escaped) is read back verbatim. -/
lemma tokenize_quoted_head (v rest : List Char) :
    tokenizeChars (('"' :: (escapeChars v ++ ['"'])) ++ rest)
      = (v, true) :: tokenizeChars rest := by
  have hsh : ('"' :: (escapeChars v ++ ['"'])) ++ rest
      = '"' :: (escapeChars v ++ '"' :: rest) := by
    rw [List.cons_append, List.append_assoc, List.cons_append, List.nil_append]
  rw [hsh, tokenizeChars_go]
  rw [show ('"' :: (escapeChars v ++ '"' :: rest)).dropWhile isWsChar
      = '"' :: (escapeChars v ++ '"' :: rest) from by
    rw [List.dropWhile_cons, if_neg (by decide)]]
  dsimp only
  rw [if_pos rfl, scanQuoted_escape v rest]


/-- The expected tokenizer output for one serialized item: the text value
comes back unescaped with the quoted flag, everything else comes back as
its bare token text. -/
def tokenOfItem : CommandItem → List Char × Bool
  | .text v => (v.data, true)
  | item => (itemCopyChars item, false)

lemma itemCopyChars_bare_dir (d : DirectionValue) :
    (dirString d).data ≠ [] ∧ ∀ c ∈ (dirString d).data, bareP c = true := by
  cases d <;> decide

lemma itemCopyChars_bare_btn (b : ButtonValue) :
    (btnString b).data ≠ [] ∧ ∀ c ∈ (btnString b).data, bareP c = true := by
  cases b <;> decide

lemma itemCopyChars_bare_spc (v : SpecialValue) :
    (specialString v).data ≠ [] ∧ ∀ c ∈ (specialString v).data, bareP c = true := by
  cases v <;> decide

lemma itemCopyChars_bare_mark (m : MarkValue) :
    (markString m).data ≠ [] ∧ ∀ c ∈ (markString m).data, bareP c = true := by
  cases m <;> decide

/-- Tokenizing a serialized item followed by nothing or by a separating
space yields the item's token and continues after it. -/
lemma tokenize_item_head (item : CommandItem) (rest : List Char)
    (hrest : rest = [] ∨ ∃ r, rest = ' ' :: r) :
    tokenizeChars (itemCopyChars item ++ rest)
      = tokenOfItem item :: tokenizeChars rest := by
  cases item with
  | direction d =>
    exact tokenize_bare_head _ rest (itemCopyChars_bare_dir d).1
      (itemCopyChars_bare_dir d).2 hrest
  | button b =>
    exact tokenize_bare_head _ rest (itemCopyChars_bare_btn b).1
      (itemCopyChars_bare_btn b).2 hrest
  | special v =>
    exact tokenize_bare_head _ rest (itemCopyChars_bare_spc v).1
      (itemCopyChars_bare_spc v).2 hrest
  | mark m =>
    exact tokenize_bare_head _ rest (itemCopyChars_bare_mark m).1
      (itemCopyChars_bare_mark m).2 hrest
  | text v => exact tokenize_quoted_head v.data rest

/-- Tokenizing the space-joined serialization of a command list yields
exactly one token per command. -/
theorem tokenizeChars_join : ∀ (cmds : List CommandItem),
    tokenizeChars (joinSep (cmds.map itemCopyChars)) = cmds.map tokenOfItem
  | [] => rfl
  | [item] => by
    rw [List.map_cons, List.map_nil]
    rw [show joinSep [itemCopyChars item] = itemCopyChars item from rfl]
    have h := tokenize_item_head item [] (Or.inl rfl)
    rw [List.append_nil] at h
    rw [h]
    rfl
  | item :: item' :: cmds' => by
    rw [List.map_cons]
    rw [show joinSep (itemCopyChars item :: List.map itemCopyChars (item' :: cmds'))
        = itemCopyChars item ++ ' ' :: joinSep (List.map itemCopyChars (item' :: cmds'))
      from by rw [List.map_cons]; rfl]
    rw [tokenize_item_head item _ (Or.inr ⟨_, rfl⟩)]
    rw [tokenize_ws_cons ' ' _ (by decide)]
    rw [tokenizeChars_join (item' :: cmds')]
    simp only [List.map_cons]


lemma bareP_not_ws {c : Char} (h : bareP c = true) : isWsChar c = false := by
  simp only [bareP, Bool.and_eq_true, Bool.not_eq_true', beq_eq_false_iff_ne] at h
  exact h.1

lemma itemCopyChars_head_not_ws (item : CommandItem) :
    ∀ c, (itemCopyChars item).head? = some c → isWsChar c = false := by
  intro c hc
  cases item with
  | text v =>
    rw [show itemCopyChars (CommandItem.text v)
        = '"' :: (escapeChars v.data ++ ['"']) from rfl, List.head?_cons] at hc
    injection hc with hc
    rw [← hc]
    decide
  | direction d =>
    have hc2 : (dirString d).data.head? = some c := hc
    exact bareP_not_ws ((itemCopyChars_bare_dir d).2 c
      (List.mem_of_mem_head? (by rw [hc2]; rfl)))
  | button b =>
    have hc2 : (btnString b).data.head? = some c := hc
    exact bareP_not_ws ((itemCopyChars_bare_btn b).2 c
      (List.mem_of_mem_head? (by rw [hc2]; rfl)))
  | special v =>
    have hc2 : (specialString v).data.head? = some c := hc
    exact bareP_not_ws ((itemCopyChars_bare_spc v).2 c
      (List.mem_of_mem_head? (by rw [hc2]; rfl)))
  | mark m =>
    have hc2 : (markString m).data.head? = some c := hc
    exact bareP_not_ws ((itemCopyChars_bare_mark m).2 c
      (List.mem_of_mem_head? (by rw [hc2]; rfl)))

lemma itemCopyChars_last_not_ws (item : CommandItem) :
    ∀ c, (itemCopyChars item).getLast? = some c → isWsChar c = false := by
  intro c hc
  cases item with
  | text v =>
    rw [show itemCopyChars (CommandItem.text v)
        = ('"' :: escapeChars v.data) ++ ['"'] from by
      rw [List.cons_append]; rfl, List.getLast?_concat] at hc
    injection hc with hc
    rw [← hc]
    decide
  | direction d =>
    exact bareP_not_ws ((itemCopyChars_bare_dir d).2 c (List.mem_of_mem_getLast? hc))
  | button b =>
    exact bareP_not_ws ((itemCopyChars_bare_btn b).2 c (List.mem_of_mem_getLast? hc))
  | special v =>
    exact bareP_not_ws ((itemCopyChars_bare_spc v).2 c (List.mem_of_mem_getLast? hc))
  | mark m =>
    exact bareP_not_ws ((itemCopyChars_bare_mark m).2 c (List.mem_of_mem_getLast? hc))

lemma itemCopyChars_ne_nil (item : CommandItem) : itemCopyChars item ≠ [] := by
  cases item with
  | text v => simp [itemCopyChars]
  | direction d => exact (itemCopyChars_bare_dir d).1
  | button b => exact (itemCopyChars_bare_btn b).1
  | special v => exact (itemCopyChars_bare_spc v).1
  | mark m => exact (itemCopyChars_bare_mark m).1

lemma joinSep_head (t : List Char) (ts : List (List Char)) (hne : t ≠ []) :
    (joinSep (t :: ts)).head? = t.head? := by
  cases ts with
  | nil => rfl
  | cons t2 ts' => exact List.head?_append_of_ne_nil t hne

lemma joinSep_last : ∀ (ts : List (List Char)) (t : List Char), t ≠ [] →
    (joinSep (ts ++ [t])).getLast? = t.getLast?
  | [], t, _ => rfl
  | s :: ts', t, h => by
    have ih := joinSep_last ts' t h
    cases hE : ts' ++ [t] with
    | nil => simp at hE
    | cons a as =>
      rw [show (s :: ts') ++ [t] = s :: (ts' ++ [t]) from rfl, hE]
      rw [show joinSep (s :: a :: as) = s ++ ' ' :: joinSep (a :: as) from rfl]
      rw [List.getLast?_append]
      rw [hE] at ih
      have hR : joinSep (a :: as) ≠ [] := by
        intro hh
        rw [hh] at ih
        have ht : t.getLast?.isSome = true := List.getLast?_isSome.mpr h
        rw [← ih] at ht
        simp at ht
      cases hRc : joinSep (a :: as) with
      | nil => exact absurd hRc hR
      | cons r rs =>
        rw [hRc] at ih
        rw [List.getLast?_cons_cons, ih]
        have ht : t.getLast?.isSome = true := List.getLast?_isSome.mpr h
        cases hgl : t.getLast? with
        | none => rw [hgl] at ht; simp at ht
        | some g => rfl

/-- The serialization of a command list has no leading or trailing
whitespace, so the trim step of tokenize leaves it unchanged. -/
lemma trim_join (cmds : List CommandItem) :
    trimChars (joinSep (cmds.map itemCopyChars)) = joinSep (cmds.map itemCopyChars) := by
  cases hc : cmds with
  | nil => rfl
  | cons i0 cs =>
    unfold trimChars
    have hhead : ∀ c, (joinSep ((i0 :: cs).map itemCopyChars)).head? = some c →
        isWsChar c = false := by
      intro c hcc
      rw [List.map_cons, joinSep_head _ _ (itemCopyChars_ne_nil i0)] at hcc
      exact itemCopyChars_head_not_ws i0 c hcc
    have hlast : ∀ c, (joinSep ((i0 :: cs).map itemCopyChars)).getLast? = some c →
        isWsChar c = false := by
      intro c hcc
      have hsplit : i0 :: cs = (i0 :: cs).dropLast ++ [(i0 :: cs).getLast (by simp)] :=
        (List.dropLast_append_getLast (by simp)).symm
      rw [hsplit, List.map_append, List.map_cons, List.map_nil] at hcc
      rw [joinSep_last _ _ (itemCopyChars_ne_nil _)] at hcc
      exact itemCopyChars_last_not_ws _ c hcc
    rw [dropWhile_eq_self_of_head _ hhead]
    rw [dropWhile_eq_self_of_head _ (by
      intro c hcc
      rw [List.head?_reverse] at hcc
      exact hlast c hcc)]
    rw [List.reverse_reverse]


/-- Every serialized item other than the linebreak mark is recognized
back as itself by the paste recognition chain. -/
lemma parse_tokOf (item : CommandItem) (h : item ≠ CommandItem.mark MarkValue.linebreak) :
    parseRaw (tokenOfItem item) = some item := by
  cases item with
  | text v =>
    show some (CommandItem.text (String.mk v.data)) = some (CommandItem.text v)
    rfl
  | direction d => cases d <;> decide
  | button b => cases b <;> decide
  | special v => cases v <;> decide
  | mark m =>
    cases m with
    | linebreak => exact absurd rfl h
    | bracketl => decide
    | bracketr => decide
    | parenl => decide
    | parenr => decide
    | next => decide
    | tilde => decide

lemma filterMap_parse : ∀ (cmds : List CommandItem),
    CommandItem.mark MarkValue.linebreak ∉ cmds →
      (cmds.map tokenOfItem).filterMap parseRaw = cmds
  | [], _ => rfl
  | item :: cmds', h => by
    rw [List.map_cons, List.filterMap_cons,
      parse_tokOf item (fun hh => h (hh ▸ List.mem_cons_self item cmds'))]
    rw [filterMap_parse cmds' (fun hm => h (List.mem_cons_of_mem item hm))]

lemma copy_filter_id (cmds : List CommandItem) :
    (cmds.map itemCopyChars).filter (fun t => !t.isEmpty) = cmds.map itemCopyChars := by
  rw [List.filter_eq_self]
  intro t ht
  rw [List.mem_map] at ht
  obtain ⟨item, _, rfl⟩ := ht
  have hne := itemCopyChars_ne_nil item
  cases hic : itemCopyChars item with
  | nil => exact absurd hic hne
  | cons a l => rfl

/-- C8: the clipboard round trip parse(serialize(tokens)) == tokens holds
for every token sequence that contains no linebreak mark — directions,
buttons, specials, the other structural marks and text tokens with quotes
and backslashes all survive — but a linebreak mark is serialized by the
fallthrough branch as the word next and parses back as the next mark, so
sequences containing it do not round-trip (see the counterexample). -/
theorem clipboard_round_trip (cmds : List CommandItem)
    (h : CommandItem.mark MarkValue.linebreak ∉ cmds) :
    parsePasteText (commandsToCopyText cmds) = cmds := by
  show ((tokenizeChars (trimChars (String.mk
      (joinSep ((cmds.map itemCopyChars).filter (fun t => !t.isEmpty)))).data))).filterMap
      parseRaw = cmds
  rw [show (String.mk (joinSep ((cmds.map itemCopyChars).filter (fun t => !t.isEmpty)))).data
      = joinSep ((cmds.map itemCopyChars).filter (fun t => !t.isEmpty)) from rfl]
  rw [copy_filter_id, trim_join, tokenizeChars_join, filterMap_parse cmds h]

def c8List : List CommandItem :=
  [CommandItem.direction DirectionValue.df, CommandItem.button ButtonValue.b12,
   CommandItem.special SpecialValue.heat, CommandItem.mark MarkValue.bracketl,
   CommandItem.text (String.mk ['a', '"', ' ', '\\', 'b']),
   CommandItem.mark MarkValue.bracketr]

theorem clipboard_round_trip_witness :
    CommandItem.mark MarkValue.linebreak ∉ c8List ∧
      parsePasteText (commandsToCopyText c8List) = c8List :=
  ⟨by decide, clipboard_round_trip c8List (by decide)⟩

/-- C8 counterexample: a sequence containing the linebreak mark does not
round-trip — it is serialized as the word next and parses back as the
next mark. -/
theorem clipboard_round_trip_cex :
    parsePasteText (commandsToCopyText [CommandItem.mark MarkValue.linebreak])
      ≠ [CommandItem.mark MarkValue.linebreak] := by decide

end Tekken
